import Mathlib

/-!
# Image-distribution core: digests, blob store, registry pull/push,
# reference index, and reference parsing

The repository's excerpted sources contain only the integration tests of the
distribution core (`src/unnamed/part_000`); the implementation itself
(digest verifier, content-addressable blob store, registry protocol client,
local image store, reference parser) is not part of the excerpt.  The
definitions below are therefore modelled from the specification's component
contracts (spec sections 3 through 4.6), amended only where the repository's
own tests pin down a different observable behaviour; each such amendment is
noted in the doc comment of the definition it affects.
-/

namespace Moby

abbrev RepoName := List Char
abbrev TagName := List Char

/-- Modelled from the spec: a `Digest` is an immutable value naming content,
with the invariant that it is derivable deterministically from the exact
byte content it names and that two digests are equal iff their underlying
bytes are byte-identical.  The model realises that invariant by an injective
model hash (the missing implementation's hash algorithm is out of the
excerpt). -/
structure Digest where
  val : List Nat
deriving DecidableEq

/-- Modelled from the spec: the deterministic content hash of a byte stream.
Injective by construction, embodying the spec's invariant that digests are
equal iff the hashed bytes are byte-identical. -/
def hashBytes (b : List Nat) : Digest := ⟨b⟩

/-- Outcome of the Digest Verifier. -/
inductive VerifyOutcome where
  | ok
  | mismatch (expected actual : Digest)
deriving DecidableEq

/-- Modelled from the spec: `Verify(content, expectedDigest) → ok | mismatch`;
on mismatch it carries both digests for diagnostics. -/
def Verify (content : List Nat) (expected : Digest) : VerifyOutcome :=
  if hashBytes content = expected then .ok
  else .mismatch expected (hashBytes content)

/-- Association-list lookup keyed on the first component. -/
def alookup {α β : Type} [DecidableEq α] (k : α) : List (α × β) → Option β
  | [] => none
  | (k', v) :: rest => if k' = k then some v else alookup k rest

/-- Remove every entry of an association list bound to a given key. -/
def removeKey {α β : Type} [DecidableEq α] (k : α) (l : List (α × β)) :
    List (α × β) :=
  l.filter (fun p => !(decide (p.1 = k)))

/-- Modelled from the spec: the Content-Addressable Blob Store, local storage
keyed by digest, with staged (write-once, not yet visible) and committed
(digest-keyed, visible to `Read`/`Exists`) regions. -/
structure BlobStore where
  committed : List (Digest × List Nat)
  staged : List (Digest × List Nat)
deriving DecidableEq

/-- Modelled from the spec: `Exists(digest) → bool` consults only committed
blobs. -/
def BlobStore.Exists (s : BlobStore) (d : Digest) : Bool :=
  (alookup d s.committed).isSome

/-- Modelled from the spec: `Read(digest) → byte stream | NotFound`, over
committed blobs only. -/
def BlobStore.Read (s : BlobStore) (d : Digest) : Option (List Nat) :=
  alookup d s.committed

/-- Modelled from the spec: `StageWrite(expectedDigest)` opens a scoped write
target; the caller's streamed bytes are recorded against the expected
digest, invisible to `Read`/`Exists` until committed. -/
def BlobStore.stageWrite (s : BlobStore) (expected : Digest)
    (bytes : List Nat) : BlobStore :=
  { s with staged := (expected, bytes) :: s.staged }

/-- Outcome of `Commit` on a staged write. -/
inductive CommitOutcome where
  | ok (d : Digest)
  | digestMismatch (expected actual : Digest)
  | noStagedWrite
deriving DecidableEq

/-- Modelled from the spec: `Commit(handle)` computes the actual digest of
everything written and compares it with the expected digest; on a match the
write moves atomically into the committed digest-keyed location, on a
mismatch the staged data is discarded, `DigestMismatch` is returned and the
visible state is unchanged. -/
def BlobStore.commit (s : BlobStore) (expected : Digest) :
    CommitOutcome × BlobStore :=
  match alookup expected s.staged with
  | none => (.noStagedWrite, s)
  | some bytes =>
    let s1 : BlobStore := ⟨s.committed, removeKey expected s.staged⟩
    match Verify bytes expected with
    | .ok => (.ok expected, ⟨(expected, bytes) :: s1.committed, s1.staged⟩)
    | .mismatch e a => (.digestMismatch e a, s1)


/-- Modelled from the spec: a `Manifest` is a content blob describing an
image, holding its configuration blob digest plus an ordered sequence of
layer blob digests. -/
structure Manifest where
  config : Digest
  layers : List Digest
deriving DecidableEq

/-- Length-prefixed serialization of a list of byte chunks, as the manifest
wire encoding of the model. -/
def encodeChunks : List (List Nat) → List Nat
  | [] => []
  | c :: cs => c.length :: c ++ encodeChunks cs

/-- Modelled from the spec: a manifest's canonical serialized bytes (its own
digest is the hash of these bytes; changing one byte changes the digest). -/
def encodeManifest (m : Manifest) : List Nat :=
  m.config.val.length :: m.config.val
    ++ m.layers.length :: encodeChunks (m.layers.map Digest.val)

/-- Read one length-prefixed chunk off the front of a byte stream. -/
def readChunk : List Nat → Option (List Nat × List Nat)
  | [] => none
  | n :: rest => if n ≤ rest.length then some (rest.take n, rest.drop n) else none

/-- Read a fixed number of length-prefixed chunks off a byte stream. -/
def readChunks : Nat → List Nat → Option (List (List Nat) × List Nat)
  | 0, l => some ([], l)
  | Nat.succ k, l =>
    match readChunk l with
    | none => none
    | some (c, rest) =>
      match readChunks k rest with
      | none => none
      | some (cs, rest') => some (c :: cs, rest')

/-- Modelled from the spec: parsing of fetched manifest bytes into the
config digest and the ordered layer digests (run only after the Digest
Verifier accepted the bytes). -/
def parseManifest (b : List Nat) : Option Manifest :=
  match readChunk b with
  | none => none
  | some (cfg, rest) =>
    match rest with
    | [] => none
    | k :: rest' =>
      match readChunks k rest' with
      | none => none
      | some (ls, rest'') =>
        if rest''.isEmpty then some ⟨⟨cfg⟩, ls.map Digest.mk⟩ else none

/-- Modelled from the spec: the remote registry as consumed by the protocol
client — a tag→digest mapping per repository, manifests keyed by digest,
and blobs keyed by digest (the transport merely returns bytes). -/
structure Registry where
  tags : List ((RepoName × TagName) × Digest)
  manifests : List (Digest × List Nat)
  blobs : List (Digest × List Nat)

/-- Modelled from the spec: a parsed image reference handed to the
distribution orchestrator: repository plus optional tag and/or digest. -/
structure PRef where
  repo : RepoName
  tag : Option TagName
  dgst : Option Digest
deriving DecidableEq

/-- Errors surfaced by the pull state machine; verification failures carry
both the expected and the actual digest, and `notFound` carries the
offending reference. -/
inductive PullErr where
  | notFound (ref : PRef)
  | manifestVerificationFailed (expected actual : Digest) (ref : PRef)
  | layerVerificationFailed (expected actual : Digest)
  | badManifestPayload
deriving DecidableEq

/-- Modelled from the spec: step 1 (Resolve) of the pull state machine — a
reference that already carries a digest is used directly (never the tag
mapping); a tag-only reference consults the registry's tag→digest mapping. -/
def resolveDigest (reg : Registry) (r : PRef) : Option Digest :=
  match r.dgst with
  | some d => some d
  | none =>
    match r.tag with
    | some t => alookup (r.repo, t) reg.tags
    | none => none

/-- Modelled from the spec: step 3 (Fetch Config + Layers) — for each digest
listed in the manifest, skip the download when the local store already has
it, otherwise stream the registry's bytes through `StageWrite`/`Commit`; a
mismatching blob aborts with `LayerVerificationFailed`, keeping the blobs
already committed by this pull. -/
def pullBlobs (reg : Registry) (r : PRef) (s : BlobStore) :
    List Digest → Except PullErr Unit × BlobStore
  | [] => (.ok (), s)
  | d :: ds =>
    if s.Exists d then pullBlobs reg r s ds
    else
      match alookup d reg.blobs with
      | none => (.error (.notFound r), s)
      | some bytes =>
        match (s.stageWrite d bytes).commit d with
        | (.ok _, s') => pullBlobs reg r s' ds
        | (.digestMismatch e a, s') =>
          (.error (.layerVerificationFailed e a), s')
        | (.noStagedWrite, s') => (.error .badManifestPayload, s')

/-- Modelled from the spec: the image record of the Local Image Store,
holding the set of manifest/layer digests the image is built from.  Records
are keyed by the manifest digest (the spec's content ID derived from the
manifest/config digest). -/
structure ImageRecord where
  blobs : List Digest
deriving DecidableEq

/-- Modelled from the spec: the Local Image Store / Reference Index — tag
associations `(repository, tag) → digest`, digest associations
`(repository, digest)` (the image record is keyed by the digest itself), and
the image records. -/
structure ImageStore where
  tagAssocs : List ((RepoName × TagName) × Digest)
  digestAssocs : List (RepoName × Digest)
  records : List (Digest × ImageRecord)
deriving DecidableEq

/-- Reference count of an image record: tag associations plus explicit
digest associations resolving to it. -/
def refcount (idx : ImageStore) (d : Digest) : Nat :=
  (idx.tagAssocs.filter (fun a => decide (a.2 = d))).length
    + (idx.digestAssocs.filter (fun a => decide (a.2 = d))).length

/-- Insert an image record if not already present (content is immutable, so
an existing record is kept). -/
def putRecord (idx : ImageStore) (d : Digest) (rec : ImageRecord) :
    ImageStore :=
  match alookup d idx.records with
  | some _ => idx
  | none => { idx with records := (d, rec) :: idx.records }

/-- Modelled from the spec: `AddDigestAssociation(repository, digest)`, used
right after a successful pull-by-digest; idempotent if already present. -/
def addDigestAssociation (idx : ImageStore) (repo : RepoName) (d : Digest) :
    ImageStore :=
  if (repo, d) ∈ idx.digestAssocs then idx
  else { idx with digestAssocs := (repo, d) :: idx.digestAssocs }

/-- Modelled from the spec: `SetTag(repository, tag, digest)` atomically
overwrites any prior association for that (repository, tag). -/
def ImageStore.setTag (idx : ImageStore) (repo : RepoName) (tag : TagName)
    (d : Digest) : ImageStore :=
  { idx with tagAssocs := ((repo, tag), d) :: removeKey (repo, tag) idx.tagAssocs }

/-- Modelled from the spec: step 4 (Index Commit) — only after every blob is
verified does the orchestrator hand the manifest and verified digest to the
Local Image Store: a pull by digest adds a digest association, a pull by tag
sets the tag association; the image record is created if missing. -/
def commitIndex (idx : ImageStore) (r : PRef) (d : Digest) (m : Manifest) :
    ImageStore :=
  let idx1 := putRecord idx d ⟨m.config :: m.layers⟩
  match r.dgst with
  | some _ => addDigestAssociation idx1 r.repo d
  | none =>
    match r.tag with
    | some t => idx1.setTag r.repo t d
    | none => idx1

/-- Local daemon state: the content-addressable blob store plus the
reference index. -/
structure LocalState where
  store : BlobStore
  index : ImageStore
deriving DecidableEq

/-- Modelled from the spec: `Resolve(reference) → imageRecord | NotFound` —
a digest reference resolves through the repository's digest association, a
tag reference through the repository's tag association. -/
def ImageStore.Resolve (idx : ImageStore) (r : PRef) : Option ImageRecord :=
  match r.dgst with
  | some d =>
    if (r.repo, d) ∈ idx.digestAssocs then alookup d idx.records else none
  | none =>
    match r.tag with
    | some t =>
      match alookup (r.repo, t) idx.tagAssocs with
      | some d => alookup d idx.records
      | none => none
    | none => none

/-- The repo-digest entries reported when inspecting the image record with
the given content ID: every (repository, digest) association resolving to
it. -/
def repoDigests (idx : ImageStore) (id : Digest) : List (RepoName × Digest) :=
  idx.digestAssocs.filter (fun a => decide (a.2 = id))

/-- Modelled from the spec: the whole pull operation — Resolve, Fetch
Manifest (verify via the Digest Verifier before parsing; a mismatch aborts
with `ManifestVerificationFailed` leaving local state unchanged), Fetch
Config + Layers, and Index Commit.  On a layer failure the blobs already
committed remain but the index is untouched. -/
def pull (reg : Registry) (st : LocalState) (r : PRef) :
    Except PullErr Digest × LocalState :=
  match resolveDigest reg r with
  | none => (.error (.notFound r), st)
  | some d =>
    match alookup d reg.manifests with
    | none => (.error (.notFound r), st)
    | some mbytes =>
      match Verify mbytes d with
      | .mismatch e a => (.error (.manifestVerificationFailed e a r), st)
      | .ok =>
        match parseManifest mbytes with
        | none => (.error .badManifestPayload, st)
        | some m =>
          match pullBlobs reg r st.store (m.config :: m.layers) with
          | (.error e, s') => (.error e, ⟨s', st.index⟩)
          | (.ok _, s') => (.ok d, ⟨s', commitIndex st.index r d m⟩)

/-- An image as produced locally before a push: its config bytes and its
ordered layer bytes. -/
structure ImageSrc where
  config : List Nat
  layers : List (List Nat)

/-- Upload one blob to the registry under the digest the server computes for
it (the server's own digest check applies). -/
def uploadBlob (reg : Registry) (bytes : List Nat) : Registry :=
  { reg with blobs := (hashBytes bytes, bytes) :: reg.blobs }

/-- Upload a list of blobs to the registry. -/
def uploadBlobs : Registry → List (List Nat) → Registry
  | reg, [] => reg
  | reg, b :: bs => uploadBlobs (uploadBlob reg b) bs

/-- Modelled from the spec: push mirrors pull in reverse — upload the config,
then each layer blob, then the manifest; a tag reference updates the
registry's tag→digest mapping; push returns the manifest digest the
registry computed. -/
def push (reg : Registry) (r : PRef) (img : ImageSrc) : Registry × Digest :=
  let m : Manifest := ⟨hashBytes img.config, img.layers.map hashBytes⟩
  let mbytes := encodeManifest m
  let d := hashBytes mbytes
  let reg1 := uploadBlobs reg (img.config :: img.layers)
  let reg2 : Registry := ⟨reg1.tags, (d, mbytes) :: reg1.manifests, reg1.blobs⟩
  let reg3 : Registry :=
    match r.tag with
    | some t => ⟨((r.repo, t), d) :: reg2.tags, reg2.manifests, reg2.blobs⟩
    | none => reg2
  (reg3, d)

/-- Whether the registry serves, for this digest, bytes that actually hash
to it (so that a download of it would verify and commit). -/
def goodB (reg : Registry) (d : Digest) : Bool :=
  match alookup d reg.blobs with
  | some b => decide (hashBytes b = d)
  | none => false

/-- Errors of the deletion operations of the Local Image Store. -/
inductive DelErr where
  | notFound
  | inUse
  | conflict
deriving DecidableEq

/-- Garbage-collect, out of the blob store, the blobs of a removed record
that no remaining image record references (deduplicated content shared with
another record survives). -/
def gcBlobs (store : BlobStore) (idx : ImageStore) (rec : ImageRecord) :
    BlobStore :=
  ⟨store.committed.filter
      (fun p => !(decide (p.1 ∈ rec.blobs))
        || idx.records.any (fun q => decide (p.1 ∈ q.2.blobs))),
    store.staged⟩

/-- Remove an image record and garbage-collect its exclusively-owned
blobs. -/
def purgeRecord (ls : LocalState) (d : Digest) : LocalState :=
  match alookup d ls.index.records with
  | none => ls
  | some rec =>
    let idx' : ImageStore :=
      { ls.index with records := removeKey d ls.index.records }
    ⟨gcBlobs ls.store idx' rec, idx'⟩

/-- Modelled from the spec: the deletion cascade — an image record is
deleted exactly when its reference count reaches zero. -/
def dropIfUnref (ls : LocalState) (d : Digest) : LocalState :=
  if refcount ls.index d = 0 then purgeRecord ls d else ls

/-- Modelled from the spec: `RemoveTag(repository, tag)` deletes the tag
association and cascades to record deletion at refcount zero.  Amended per
`TestDeleteImageWithDigestAndTag` and
`TestDeleteImageWithDigestAndMultiRepoTag` (src/unnamed/part_000): when the
removed tag was the last tag association of its repository resolving to the
image, the repository's digest associations for that image are removed as
well before the cascade. -/
def removeImageByTag (ls : LocalState) (repo : RepoName) (tag : TagName) :
    Except DelErr LocalState :=
  match alookup (repo, tag) ls.index.tagAssocs with
  | none => .error .notFound
  | some d =>
    let idx1 : ImageStore :=
      { ls.index with tagAssocs := removeKey (repo, tag) ls.index.tagAssocs }
    let idx2 : ImageStore :=
      if idx1.tagAssocs.any
          (fun a => decide (a.1.1 = repo) && decide (a.2 = d))
      then idx1
      else
        { idx1 with
          digestAssocs := idx1.digestAssocs.filter
            (fun p => !(decide (p.1 = repo) && decide (p.2 = d))) }
    .ok (dropIfUnref ⟨ls.store, idx2⟩ d)

/-- Modelled from the spec: `RemoveDigestAssociation(repository, digest)`
fails with `InUse` if any tag association for that repository still
resolves to this digest; otherwise removes it and cascades. -/
def removeDigestAssociation (ls : LocalState) (repo : RepoName) (d : Digest) :
    Except DelErr LocalState :=
  if (repo, d) ∈ ls.index.digestAssocs then
    if ls.index.tagAssocs.any
        (fun a => decide (a.1.1 = repo) && decide (a.2 = d))
    then .error .inUse
    else
      let idx1 : ImageStore :=
        { ls.index with
          digestAssocs := ls.index.digestAssocs.filter
            (fun p => !(decide (p = (repo, d)))) }
      .ok (dropIfUnref ⟨ls.store, idx1⟩ d)
  else .error .notFound

/-- Sever every tag and digest association resolving to an image record. -/
def sever (idx : ImageStore) (d : Digest) : ImageStore :=
  { idx with
    tagAssocs := idx.tagAssocs.filter (fun a => !(decide (a.2 = d))),
    digestAssocs := idx.digestAssocs.filter (fun a => !(decide (a.2 = d))) }

/-- Whether a reference set blocks nothing: all references confined to a
single repository with at most one tag.  Modelled after the unforced
delete-by-ID acceptance that `TestDeleteImageByIDOnlyPulledByDigest`
(src/unnamed/part_000) exhibits. -/
def isSingleReference (tagRefs : List ((RepoName × TagName) × Digest))
    (dgstRefs : List (RepoName × Digest)) : Bool :=
  match tagRefs, dgstRefs with
  | [], [] => false
  | [], q :: qs => qs.all (fun p => decide (p.1 = q.1))
  | [t], qs => !qs.isEmpty && qs.all (fun p => decide (p.1 = t.1.1))
  | _, _ => false

/-- Modelled from the spec: removing an image by content ID (not by
reference), with an optional force flag; without force the delete is
refused while multiple references point at the record — amended per
`TestDeleteImageByIDOnlyPulledByDigest` (src/unnamed/part_000), which
deletes unforced while one tag and one digest association of the same
repository remain: references confined to a single repository with at most
one tag do not block the delete.  The delete severs every association and
purges the record together with its exclusively-owned blobs. -/
def deleteById (ls : LocalState) (d : Digest) (force : Bool) :
    Except DelErr LocalState :=
  match alookup d ls.index.records with
  | none => .error .notFound
  | some _ =>
    let tagRefs := ls.index.tagAssocs.filter (fun a => decide (a.2 = d))
    let dgstRefs := ls.index.digestAssocs.filter (fun a => decide (a.2 = d))
    if !force && decide (tagRefs.length + dgstRefs.length > 1)
        && !(isSingleReference tagRefs dgstRefs)
    then .error .conflict
    else .ok (purgeRecord ⟨ls.store, sever ls.index d⟩ d)

/-- Whether a deletion succeeded. -/
def delOk {ε α : Type} : Except ε α → Bool
  | .ok _ => true
  | .error _ => false

/-- The state delivered by a successful deletion, with a fallback for the
error case. -/
def delState {ε : Type} (fallback : LocalState) :
    Except ε LocalState → LocalState
  | .ok s => s
  | .error _ => fallback

/-- Split a character list at the first occurrence of a character,
returning the parts before and after it. -/
def splitAtFirst (c : Char) : List Char → Option (List Char × List Char)
  | [] => none
  | x :: xs =>
    if x = c then some ([], xs)
    else
      match splitAtFirst c xs with
      | some p => some (x :: p.1, p.2)
      | none => none

/-- Scan a reversed repository-and-tag text for the tag separator: walking
from the end, collect tag characters until a colon (found: returns the name
and the tag), a slash, or the start (no tag). -/
def revFindTag (acc : List Char) : List Char → Option (List Char × List Char)
  | [] => none
  | c :: rest =>
    if c = ':' then some (rest.reverse, acc)
    else if c = '/' then none
    else revFindTag (c :: acc) rest

/-- Valid tag characters: alphanumerics, dot, dash, underscore. -/
def validTagChar (c : Char) : Bool :=
  c.isAlphanum || decide (c = '.') || decide (c = '-') || decide (c = '_')

/-- A tag is nonempty and made of valid tag characters. -/
def validTag (t : List Char) : Bool :=
  !t.isEmpty && t.all validTagChar

/-- Valid repository-name characters: alphanumerics, dot, dash, underscore,
slash, and colon (for a registry port). -/
def validNameChar (c : Char) : Bool :=
  c.isAlphanum || decide (c = '.') || decide (c = '-') || decide (c = '_')
    || decide (c = '/') || decide (c = ':')

/-- Valid digest-algorithm characters. -/
def validAlgChar (c : Char) : Bool := c.isLower || c.isDigit

/-- Valid lowercase hex characters. -/
def validHexChar (c : Char) : Bool :=
  c.isDigit || (decide ('a' ≤ c) && decide (c ≤ 'f'))

/-- Modelled from the spec: a digest text is an algorithm identifier, a
colon, and a hex-encoded hash. -/
def validDigestText (dg : List Char) : Bool :=
  match splitAtFirst ':' dg with
  | some p =>
    !p.1.isEmpty && p.1.all validAlgChar && !p.2.isEmpty
      && p.2.all validHexChar
  | none => false

/-- Validate an optional digest part of a reference text. -/
def checkDigestPart : Option (List Char) → Bool
  | some dg => validDigestText dg
  | none => true

/-- The default registry host. -/
def defaultDomain : List Char := "docker.io".toList

/-- The official-images repository prefix under the default registry. -/
def officialRepo : List Char := "library".toList

/-- Whether the first path component of a repository names a registry host:
it contains a dot or a colon, or is exactly "localhost". -/
def looksLikeDomain (comp : List Char) : Bool :=
  comp.any (fun c => decide (c = '.') || decide (c = ':'))
    || decide (comp = "localhost".toList)

/-- Modelled from the spec: normalization of default registry/repository
prefixes — a name without a registry host gets the default registry
prepended, and a single-component name under the default registry gets the
official repository prefix. -/
def normalizeName (name : List Char) : List Char :=
  match splitAtFirst '/' name with
  | none => defaultDomain ++ '/' :: officialRepo ++ '/' :: name
  | some p =>
    if looksLikeDomain p.1 then
      if decide (p.1 = defaultDomain)
          && !(p.2.any (fun c => decide (c = '/'))) then
        defaultDomain ++ '/' :: officialRepo ++ '/' :: p.2
      else name
    else defaultDomain ++ '/' :: name

/-- A repository name is acceptable when nonempty, made of valid
characters, and carrying no colon after its last slash (such a colon would
be a tag separator and would make the text ambiguous). -/
def validRawName (nm : List Char) : Bool :=
  !nm.isEmpty && nm.all validNameChar && (revFindTag [] nm.reverse).isNone

/-- Modelled from the spec: a parsed and normalized image reference —
repository, optional tag, optional digest text, with at least one of tag
and digest present. -/
structure Ref where
  name : List Char
  tag : Option (List Char)
  dgst : Option (List Char)
deriving DecidableEq

/-- The default tag attached when a reference carries neither tag nor
digest. -/
def latestTag : List Char := "latest".toList

/-- Default the tag to `latest` when neither tag nor digest is given. -/
def defaultedTag : Option (List Char) → Option (List Char) →
    Option (List Char)
  | none, none => some latestTag
  | t, _ => t

/-- Assemble a parsed reference: normalize the repository and default the
tag. -/
def mkRef (nm : List Char) (tg : Option (List Char))
    (dg : Option (List Char)) : Ref :=
  ⟨normalizeName nm, defaultedTag tg dg, dg⟩

/-- Split a reference text at the digest separator `@`. -/
def splitDigestPart (text : List Char) : List Char × Option (List Char) :=
  match splitAtFirst '@' text with
  | some p => (p.1, some p.2)
  | none => (text, none)

/-- Modelled from the spec: `Parse(text) → Reference | error` — splits off
the digest after `@` and the tag after the last colon of the last path
component, validates each part, rejects ambiguous or malformed strings
(e.g. a bare digest with no repository), normalizes the default
registry/repository prefixes, and defaults the tag when neither tag nor
digest is given. -/
def Parse (text : List Char) : Option Ref :=
  let np := splitDigestPart text
  if checkDigestPart np.2 then
    match revFindTag [] np.1.reverse with
    | some p =>
      if validTag p.2 && validRawName p.1 then
        some (mkRef p.1 (some p.2) np.2)
      else none
    | none =>
      if validRawName np.1 then some (mkRef np.1 none np.2) else none
  else none

/-- Modelled from the spec: `String()` renders canonically as `repo:tag`,
`repo@digest`, or `repo:tag@digest`. -/
def Ref.render (r : Ref) : List Char :=
  r.name
    ++ (match r.tag with
        | some t => ':' :: t
        | none => [])
    ++ (match r.dgst with
        | some d => '@' :: d
        | none => [])

theorem alookup_some_mem {α β : Type} [DecidableEq α] {k : α} {v : β} :
    ∀ {l : List (α × β)}, alookup k l = some v → (k, v) ∈ l := by
  intro l h
  induction l with
  | nil => simp [alookup] at h
  | cons p rest ih =>
    obtain ⟨k', v'⟩ := p
    by_cases hk : k' = k
    · subst hk
      simp [alookup] at h
      subst h
      exact List.mem_cons_self _ _
    · simp [alookup, hk] at h
      exact List.mem_cons_of_mem _ (ih h)

theorem alookup_removeKey_self {α β : Type} [DecidableEq α] (k : α)
    (l : List (α × β)) : alookup k (removeKey k l) = none := by
  induction l with
  | nil => rfl
  | cons p rest ih =>
    obtain ⟨k', v'⟩ := p
    by_cases hk : k' = k
    · subst hk
      simpa [removeKey] using ih
    · simpa [removeKey, alookup, hk] using ih

theorem alookup_removeKey_ne {α β : Type} [DecidableEq α] {k k' : α}
    (l : List (α × β)) (h : k ≠ k') :
    alookup k (removeKey k' l) = alookup k l := by
  induction l with
  | nil => rfl
  | cons p rest ih =>
    obtain ⟨ka, va⟩ := p
    by_cases hk : ka = k'
    · have hka : ¬ ka = k := by
        intro hc
        exact h (hc ▸ hk)
      simp only [removeKey, List.filter_cons] at ih ⊢
      simp [alookup, hk, hka, ih, Ne.symm h]
    · by_cases hk2 : ka = k
      · simp only [removeKey, List.filter_cons] at ih ⊢
        simp [alookup, hk, hk2, h]
      · simp only [removeKey, List.filter_cons] at ih ⊢
        simp [alookup, hk, hk2, ih]

theorem alookup_filter_none {α β : Type} [DecidableEq α] (k : α)
    (g : α × β → Bool) (l : List (α × β)) (h : ∀ v : β, g (k, v) = false) :
    alookup k (l.filter g) = none := by
  induction l with
  | nil => rfl
  | cons p rest ih =>
    obtain ⟨k', v'⟩ := p
    by_cases hk : k' = k
    · subst hk
      simp [List.filter, h v', ih]
    · by_cases hg : g (k', v') <;> simp [List.filter, hg, alookup, hk, ih]

/-- C3: for every blob staged under an expected digest, `Commit` succeeds iff
the freshly computed digest of the written bytes equals that expected
digest, and when it fails the store's `Exists` and `Read` answers for that
digest are exactly what they were before the failed attempt. -/
theorem commit_succeeds_iff_digest_matches (s : BlobStore) (expected : Digest)
    (bytes : List Nat) :
    ((((s.stageWrite expected bytes).commit expected).1
        = CommitOutcome.ok expected) ↔ hashBytes bytes = expected)
    ∧ (hashBytes bytes ≠ expected →
        ((s.stageWrite expected bytes).commit expected).2.Exists expected
            = s.Exists expected
          ∧ ((s.stageWrite expected bytes).commit expected).2.Read expected
            = s.Read expected) := by
  constructor
  · constructor
    · intro h
      by_cases hd : hashBytes bytes = expected
      · exact hd
      · simp [BlobStore.stageWrite, BlobStore.commit, alookup, Verify, hd] at h
    · intro hd
      simp [BlobStore.stageWrite, BlobStore.commit, alookup, Verify, hd]
  · intro hd
    simp [BlobStore.stageWrite, BlobStore.commit, alookup, Verify, hd,
      BlobStore.Exists, BlobStore.Read]

/-- C3 witness: a concrete failed commit (bytes `[3]` staged under the digest
of `[7]`) leaves `Exists`/`Read` untouched, and a matching commit is exactly
when the hash agrees. -/
theorem commit_succeeds_iff_digest_matches_witness :
    ((((BlobStore.stageWrite ⟨[], []⟩ ⟨[7]⟩ [3]).commit ⟨[7]⟩).1
        = CommitOutcome.ok ⟨[7]⟩) ↔ hashBytes [3] = ⟨[7]⟩)
    ∧ (hashBytes [3] ≠ ⟨[7]⟩ →
        ((BlobStore.stageWrite ⟨[], []⟩ ⟨[7]⟩ [3]).commit ⟨[7]⟩).2.Exists ⟨[7]⟩
            = BlobStore.Exists ⟨[], []⟩ ⟨[7]⟩
          ∧ ((BlobStore.stageWrite ⟨[], []⟩ ⟨[7]⟩ [3]).commit ⟨[7]⟩).2.Read ⟨[7]⟩
            = BlobStore.Read ⟨[], []⟩ ⟨[7]⟩) :=
  commit_succeeds_iff_digest_matches ⟨[], []⟩ ⟨[7]⟩ [3]

/-- C2: for every pull, if the fetched manifest bytes do not hash to the
expected manifest digest, the whole pull aborts with
`ManifestVerificationFailed` (carrying the expected digest, the actual
digest and the reference) before the manifest is parsed, and no local state
is changed. -/
theorem manifest_mismatch_aborts_pull (reg : Registry) (st : LocalState)
    (r : PRef) (d : Digest) (mbytes : List Nat)
    (hres : resolveDigest reg r = some d)
    (hman : alookup d reg.manifests = some mbytes)
    (hbad : hashBytes mbytes ≠ d) :
    pull reg st r
      = (.error (.manifestVerificationFailed d (hashBytes mbytes) r), st) := by
  simp [pull, hres, hman, Verify, hbad]

/-- C2 witness: a registry whose stored manifest bytes `[9]` do not hash to
the digest `⟨[5]⟩` they are filed under fails the pull of `r@⟨[5]⟩` with
`ManifestVerificationFailed` and leaves the empty local state unchanged. -/
theorem manifest_mismatch_aborts_pull_witness :
    resolveDigest ⟨[], [(⟨[5]⟩, [9])], []⟩ ⟨['r'], none, some ⟨[5]⟩⟩
        = some ⟨[5]⟩
      ∧ alookup (⟨[5]⟩ : Digest) [((⟨[5]⟩ : Digest), [9])] = some [9]
      ∧ hashBytes [9] ≠ (⟨[5]⟩ : Digest)
      ∧ pull ⟨[], [(⟨[5]⟩, [9])], []⟩ ⟨⟨[], []⟩, ⟨[], [], []⟩⟩
          ⟨['r'], none, some ⟨[5]⟩⟩
        = (.error (.manifestVerificationFailed ⟨[5]⟩ (hashBytes [9])
              ⟨['r'], none, some ⟨[5]⟩⟩),
           ⟨⟨[], []⟩, ⟨[], [], []⟩⟩) :=
  ⟨by decide, by decide, by decide,
    manifest_mismatch_aborts_pull ⟨[], [(⟨[5]⟩, [9])], []⟩
      ⟨⟨[], []⟩, ⟨[], [], []⟩⟩ ⟨['r'], none, some ⟨[5]⟩⟩ ⟨[5]⟩ [9]
      (by decide) (by decide) (by decide)⟩

/-- C8: a reference that carries a digest is pulled through that digest
directly — whatever the registry's tag→digest mapping holds, a missing
manifest under that digest fails the pull with `NotFound` carrying the
offending reference, and no local state changes. -/
theorem pull_by_digest_no_fallback
    (tags : List ((RepoName × TagName) × Digest))
    (manifests blobs : List (Digest × List Nat)) (st : LocalState)
    (repo : RepoName) (tg : Option TagName) (d : Digest)
    (hnone : alookup d manifests = none) :
    pull ⟨tags, manifests, blobs⟩ st ⟨repo, tg, some d⟩
      = (.error (.notFound ⟨repo, tg, some d⟩), st) := by
  simp [pull, resolveDigest, hnone]

/-- C8 witness: even with a tag mapping pointing at a manifest that does
exist, pulling by an absent digest fails with `NotFound` naming the
reference — the tag mapping is never consulted. -/
theorem pull_by_digest_no_fallback_witness :
    alookup (⟨[9]⟩ : Digest) [((⟨[1]⟩ : Digest), [1])] = none
      ∧ pull ⟨[((['r'], ['t']), ⟨[1]⟩)], [(⟨[1]⟩, [1])], []⟩
          ⟨⟨[], []⟩, ⟨[], [], []⟩⟩ ⟨['r'], some ['t'], some ⟨[9]⟩⟩
        = (.error (.notFound ⟨['r'], some ['t'], some ⟨[9]⟩⟩),
           ⟨⟨[], []⟩, ⟨[], [], []⟩⟩) :=
  ⟨by decide,
    pull_by_digest_no_fallback [((['r'], ['t']), ⟨[1]⟩)] [(⟨[1]⟩, [1])] []
      ⟨⟨[], []⟩, ⟨[], [], []⟩⟩ ['r'] (some ['t']) ⟨[9]⟩ (by decide)⟩

theorem readChunk_encode (c tail : List Nat) :
    readChunk (c.length :: (c ++ tail)) = some (c, tail) := by
  simp [readChunk, List.take_left, List.drop_left]

theorem readChunks_encode (cs : List (List Nat)) :
    readChunks cs.length (encodeChunks cs) = some (cs, []) := by
  induction cs with
  | nil => rfl
  | cons c cs ih =>
    simp [encodeChunks, readChunks, readChunk_encode, ih, List.cons_append]

theorem digest_mk_val (d : Digest) : Digest.mk d.val = d := rfl

theorem map_mk_val (ds : List Digest) :
    List.map (Digest.mk ∘ Digest.val) ds = ds := by
  induction ds with
  | nil => rfl
  | cons x xs ihx =>
    simp only [List.map_cons, Function.comp_apply, digest_mk_val, ihx]

/-- The model's manifest serialization round-trips through the model's
manifest parsing. -/
theorem parse_encodeManifest (m : Manifest) :
    parseManifest (encodeManifest m) = some m := by
  obtain ⟨cfg, layers⟩ := m
  have h1 := readChunk_encode cfg.val
    (layers.length :: encodeChunks (layers.map Digest.val))
  have h2 := readChunks_encode (layers.map Digest.val)
  simp only [List.length_map] at h2
  simp [encodeManifest, parseManifest, h1, h2, digest_mk_val,
    List.cons_append, List.map_map, map_mk_val]

theorem goodB_elim {reg : Registry} {d : Digest} (h : goodB reg d = true) :
    ∃ b, alookup d reg.blobs = some b ∧ hashBytes b = d := by
  unfold goodB at h
  cases hb : alookup d reg.blobs with
  | none => rw [hb] at h; simp at h
  | some b =>
    rw [hb] at h
    simp at h
    exact ⟨b, rfl, h⟩

theorem alookup_cons_isSome {α β : Type} [DecidableEq α] {k : α} (k' : α)
    (v : β) (l : List (α × β)) (h : (alookup k l).isSome = true) :
    (alookup k ((k', v) :: l)).isSome = true := by
  by_cases hk : k' = k <;> simp [alookup, hk, h]

/-- Blob fetching succeeds when every listed digest is either locally
present or served faithfully by the registry. -/
theorem pullBlobs_ok (reg : Registry) (r : PRef) :
    ∀ (ds : List Digest) (s : BlobStore),
      (∀ x ∈ ds, s.Exists x = true ∨ goodB reg x = true) →
      (pullBlobs reg r s ds).1 = .ok () := by
  intro ds
  induction ds with
  | nil => intro s _; rfl
  | cons d ds ih =>
    intro s h
    by_cases he : s.Exists d
    · simpa [pullBlobs, he] using
        ih s (fun x hx => h x (List.mem_cons_of_mem _ hx))
    · have hg : goodB reg d = true := by
        rcases h d (List.mem_cons_self _ _) with h1 | h1
        · exact absurd h1 he
        · exact h1
      obtain ⟨b, hb, hbd⟩ := goodB_elim hg
      have hrec := ih ⟨(d, b) :: s.committed, removeKey d ((d, b) :: s.staged)⟩
        (fun x hx => by
          rcases h x (List.mem_cons_of_mem _ hx) with h1 | h1
          · exact Or.inl (alookup_cons_isSome d b s.committed h1)
          · exact Or.inr h1)
      simpa [pullBlobs, he, hb, BlobStore.stageWrite, BlobStore.commit,
        alookup, Verify, hbd] using hrec

/-- Blob fetching aborts with `LayerVerificationFailed` at the first digest
whose registry bytes do not hash to it, after any prefix of faithfully
served or locally present digests. -/
theorem pullBlobs_fail (reg : Registry) (r : PRef) (L : Digest)
    (bytesL : List Nat) (post : List Digest)
    (hLreg : alookup L reg.blobs = some bytesL)
    (hLbad : hashBytes bytesL ≠ L) :
    ∀ (pre : List Digest) (s : BlobStore),
      (∀ x ∈ pre, s.Exists x = true ∨ goodB reg x = true) →
      s.Exists L = false →
      (pullBlobs reg r s (pre ++ L :: post)).1
        = .error (.layerVerificationFailed L (hashBytes bytesL)) := by
  intro pre
  induction pre with
  | nil =>
    intro s _ hL
    simp [pullBlobs, hL, hLreg, BlobStore.stageWrite, BlobStore.commit,
      alookup, Verify, hLbad]
  | cons d pre ih =>
    intro s h hL
    by_cases he : s.Exists d
    · simpa [pullBlobs, he] using
        ih s (fun x hx => h x (List.mem_cons_of_mem _ hx)) hL
    · have hg : goodB reg d = true := by
        rcases h d (List.mem_cons_self _ _) with h1 | h1
        · exact absurd h1 he
        · exact h1
      obtain ⟨b, hb, hbd⟩ := goodB_elim hg
      have hdL : ¬ d = L := by
        intro hdl
        rw [hdl, hLreg] at hb
        have hbb : bytesL = b := by injection hb
        rw [← hbb, hdl] at hbd
        exact hLbad hbd
      have hsL : BlobStore.Exists
          ⟨(d, b) :: s.committed, removeKey d ((d, b) :: s.staged)⟩ L
            = false := by
        simpa [BlobStore.Exists, alookup, hdL] using hL
      have hrec := ih ⟨(d, b) :: s.committed, removeKey d ((d, b) :: s.staged)⟩
        (fun x hx => by
          rcases h x (List.mem_cons_of_mem _ hx) with h1 | h1
          · exact Or.inl (alookup_cons_isSome d b s.committed h1)
          · exact Or.inr h1) hsL
      simpa [pullBlobs, he, hb, BlobStore.stageWrite, BlobStore.commit,
        alookup, Verify, hbd] using hrec

/-- C1: pulling by digest a manifest that verifies and declares a layer
digest `L` whose registry bytes hash to a different digest aborts with
`LayerVerificationFailed` carrying the declared and the actual digest,
leaves the tag/digest index unchanged, and `Resolve` on that
repository@digest reference still answers `NotFound`. -/
theorem altered_layer_aborts_pull (reg : Registry) (st : LocalState)
    (repo : RepoName) (d2 L : Digest) (mbytes bytesL : List Nat)
    (m : Manifest) (pre post : List Digest)
    (hman : alookup d2 reg.manifests = some mbytes)
    (hver : hashBytes mbytes = d2)
    (hparse : parseManifest mbytes = some m)
    (hsplit : m.config :: m.layers = pre ++ L :: post)
    (hpre : ∀ x ∈ pre, st.store.Exists x = true ∨ goodB reg x = true)
    (hLreg : alookup L reg.blobs = some bytesL)
    (hLbad : hashBytes bytesL ≠ L)
    (hLnew : st.store.Exists L = false)
    (hres : st.index.Resolve ⟨repo, none, some d2⟩ = none) :
    (pull reg st ⟨repo, none, some d2⟩).1
        = .error (.layerVerificationFailed L (hashBytes bytesL))
      ∧ (pull reg st ⟨repo, none, some d2⟩).2.index = st.index
      ∧ (pull reg st ⟨repo, none, some d2⟩).2.index.Resolve
          ⟨repo, none, some d2⟩ = none := by
  rcases hP : pullBlobs reg ⟨repo, none, some d2⟩ st.store (pre ++ L :: post)
    with ⟨p1, s2⟩
  have hp1 : p1 = .error (.layerVerificationFailed L (hashBytes bytesL)) := by
    have hf := pullBlobs_fail reg ⟨repo, none, some d2⟩ L bytesL post hLreg
      hLbad pre st.store hpre hLnew
    rw [hP] at hf
    exact hf
  subst hp1
  have hpull : pull reg st ⟨repo, none, some d2⟩
      = (.error (.layerVerificationFailed L (hashBytes bytesL)),
         ⟨s2, st.index⟩) := by
    simp [pull, resolveDigest, hman, Verify, hver, hparse, hsplit, hP]
  rw [hpull]
  exact ⟨rfl, rfl, hres⟩

/-- C1 witness: a registry serving the two-blob manifest `⟨⟨[1]⟩, [⟨[2]⟩]⟩`
by its true digest, a faithful config blob, and layer bytes `[9]` that do
not hash to the declared layer digest `⟨[2]⟩`; the pull into an empty local
state aborts with `LayerVerificationFailed ⟨[2]⟩ (hash [9])` and the index
stays empty. -/
theorem altered_layer_aborts_pull_witness :
    hashBytes [9] ≠ (⟨[2]⟩ : Digest)
      ∧ (pull ⟨[], [(⟨[1, 1, 1, 1, 2]⟩, [1, 1, 1, 1, 2])],
            [(⟨[1]⟩, [1]), (⟨[2]⟩, [9])]⟩
          ⟨⟨[], []⟩, ⟨[], [], []⟩⟩ ⟨['r'], none, some ⟨[1, 1, 1, 1, 2]⟩⟩).1
        = .error (.layerVerificationFailed ⟨[2]⟩ (hashBytes [9]))
      ∧ (pull ⟨[], [(⟨[1, 1, 1, 1, 2]⟩, [1, 1, 1, 1, 2])],
            [(⟨[1]⟩, [1]), (⟨[2]⟩, [9])]⟩
          ⟨⟨[], []⟩, ⟨[], [], []⟩⟩ ⟨['r'], none, some ⟨[1, 1, 1, 1, 2]⟩⟩).2.index
        = ⟨[], [], []⟩ := by
  have h := altered_layer_aborts_pull
    ⟨[], [(⟨[1, 1, 1, 1, 2]⟩, [1, 1, 1, 1, 2])],
      [(⟨[1]⟩, [1]), (⟨[2]⟩, [9])]⟩
    ⟨⟨[], []⟩, ⟨[], [], []⟩⟩ ['r'] ⟨[1, 1, 1, 1, 2]⟩ ⟨[2]⟩
    [1, 1, 1, 1, 2] [9] ⟨⟨[1]⟩, [⟨[2]⟩]⟩ [⟨[1]⟩] []
    (by decide) (by decide) (by decide) (by decide) (by decide) (by decide)
    (by decide) (by decide) (by decide)
  exact ⟨by decide, h.1, h.2.1⟩

/-- A pull whose manifest resolves, verifies and parses, and whose listed
blobs are all locally present or faithfully served, succeeds with the
resolved digest and commits exactly the index update of `commitIndex`. -/
theorem pull_ok_of (reg : Registry) (st : LocalState) (r : PRef) (d : Digest)
    (m : Manifest) (mbytes : List Nat)
    (hres : resolveDigest reg r = some d)
    (hman : alookup d reg.manifests = some mbytes)
    (hver : hashBytes mbytes = d)
    (hparse : parseManifest mbytes = some m)
    (hgood : ∀ x ∈ m.config :: m.layers,
        st.store.Exists x = true ∨ goodB reg x = true) :
    (pull reg st r).1 = .ok d
      ∧ (pull reg st r).2.index = commitIndex st.index r d m := by
  rcases hP : pullBlobs reg r st.store (m.config :: m.layers) with ⟨p1, s2⟩
  have hp1 : p1 = .ok () := by
    have ho := pullBlobs_ok reg r (m.config :: m.layers) st.store hgood
    rw [hP] at ho
    exact ho
  subst hp1
  constructor <;> simp [pull, hres, hman, Verify, hver, hparse, hP]

theorem goodB_uploadBlob_mono (reg : Registry) (x : List Nat) (k : Digest)
    (h : goodB reg k = true) : goodB (uploadBlob reg x) k = true := by
  by_cases hk : hashBytes x = k
  · simp [goodB, uploadBlob, alookup, hk]
  · simpa [goodB, uploadBlob, alookup, hk] using h

theorem goodB_uploadBlobs_mono (bs : List (List Nat)) :
    ∀ (reg : Registry) (k : Digest), goodB reg k = true →
      goodB (uploadBlobs reg bs) k = true := by
  induction bs with
  | nil => intro reg k h; exact h
  | cons b bs ih =>
    intro reg k h
    exact ih _ _ (goodB_uploadBlob_mono reg b k h)

theorem goodB_uploadBlobs_mem (bs : List (List Nat)) :
    ∀ (reg : Registry) (b : List Nat), b ∈ bs →
      goodB (uploadBlobs reg bs) (hashBytes b) = true := by
  induction bs with
  | nil => intro reg b h; cases h
  | cons c bs ih =>
    intro reg b h
    rcases List.mem_cons.mp h with h1 | h1
    · subst h1
      have hl : alookup (hashBytes b) (uploadBlob reg b).blobs = some b := by
        simp [uploadBlob, alookup]
      have hgb : goodB (uploadBlob reg b) (hashBytes b) = true := by
        simp [goodB, hl]
      exact goodB_uploadBlobs_mono bs (uploadBlob reg b) (hashBytes b) hgb
    · exact ih _ _ h1

/-- C4: the manifest digest returned by pushing an image equals the digest
reported by a subsequent pull of it, both when pulling by the pushed tag
(through the registry's tag→digest mapping) and when pulling by that digest
itself. -/
theorem push_pull_digest_agree (reg : Registry) (st : LocalState)
    (img : ImageSrc) (repo : RepoName) (t : TagName) :
    (pull (push reg ⟨repo, some t, none⟩ img).1 st ⟨repo, some t, none⟩).1
        = .ok (push reg ⟨repo, some t, none⟩ img).2
      ∧ (pull (push reg ⟨repo, some t, none⟩ img).1 st
            ⟨repo, none, some (push reg ⟨repo, some t, none⟩ img).2⟩).1
        = .ok (push reg ⟨repo, some t, none⟩ img).2 := by
  obtain ⟨cfg, layers⟩ := img
  have hgood : ∀ x ∈ (⟨hashBytes cfg, layers.map hashBytes⟩ : Manifest).config
      :: (⟨hashBytes cfg, layers.map hashBytes⟩ : Manifest).layers,
      st.store.Exists x = true
        ∨ goodB (push reg ⟨repo, some t, none⟩ ⟨cfg, layers⟩).1 x = true := by
    intro x hx
    right
    have hex : ∃ b ∈ cfg :: layers, hashBytes b = x := by
      rcases List.mem_cons.mp hx with h1 | h1
      · exact ⟨cfg, List.mem_cons_self _ _, h1.symm⟩
      · rcases List.mem_map.mp h1 with ⟨b, hb, hbe⟩
        exact ⟨b, List.mem_cons_of_mem _ hb, hbe⟩
    rcases hex with ⟨b, hb, hbe⟩
    rw [← hbe]
    exact goodB_uploadBlobs_mem (cfg :: layers) reg b hb
  have hA := pull_ok_of (push reg ⟨repo, some t, none⟩ ⟨cfg, layers⟩).1 st
    ⟨repo, some t, none⟩ (push reg ⟨repo, some t, none⟩ ⟨cfg, layers⟩).2
    ⟨hashBytes cfg, layers.map hashBytes⟩
    (encodeManifest ⟨hashBytes cfg, layers.map hashBytes⟩)
    (by simp [push, resolveDigest, alookup])
    (by simp [push, alookup])
    rfl
    (parse_encodeManifest _)
    hgood
  have hB := pull_ok_of (push reg ⟨repo, some t, none⟩ ⟨cfg, layers⟩).1 st
    ⟨repo, none, some (push reg ⟨repo, some t, none⟩ ⟨cfg, layers⟩).2⟩
    (push reg ⟨repo, some t, none⟩ ⟨cfg, layers⟩).2
    ⟨hashBytes cfg, layers.map hashBytes⟩
    (encodeManifest ⟨hashBytes cfg, layers.map hashBytes⟩)
    rfl
    (by simp [push, alookup])
    rfl
    (parse_encodeManifest _)
    hgood
  exact ⟨hA.1, hB.1⟩

theorem putRecord_digestAssocs (idx : ImageStore) (d : Digest)
    (rec : ImageRecord) :
    (putRecord idx d rec).digestAssocs = idx.digestAssocs := by
  unfold putRecord
  cases alookup d idx.records <;> rfl

/-- C10: after an image is pulled solely by a repository@digest reference
into a local state holding no digest association for that digest yet,
inspecting the image record reports exactly one repo-digest entry, and it
is the repository@digest pair of the reference used for the pull. -/
theorem pull_by_digest_single_repo_digest (reg : Registry) (st : LocalState)
    (repo : RepoName) (d : Digest) (m : Manifest) (mbytes : List Nat)
    (hman : alookup d reg.manifests = some mbytes)
    (hver : hashBytes mbytes = d)
    (hparse : parseManifest mbytes = some m)
    (hgood : ∀ x ∈ m.config :: m.layers,
        st.store.Exists x = true ∨ goodB reg x = true)
    (hfresh : st.index.digestAssocs.filter (fun a => decide (a.2 = d)) = []) :
    repoDigests (pull reg st ⟨repo, none, some d⟩).2.index d = [(repo, d)] := by
  have h := pull_ok_of reg st ⟨repo, none, some d⟩ d m mbytes rfl hman hver
    hparse hgood
  rw [h.2]
  have hda : (putRecord st.index d ⟨m.config :: m.layers⟩).digestAssocs
      = st.index.digestAssocs := putRecord_digestAssocs _ _ _
  have hnotmem : (repo, d) ∉ st.index.digestAssocs := by
    intro hmem
    have hmf : (repo, d) ∈
        st.index.digestAssocs.filter (fun a => decide (a.2 = d)) :=
      List.mem_filter.mpr ⟨hmem, by simp⟩
    rw [hfresh] at hmf
    cases hmf
  simp only [commitIndex, addDigestAssociation, hda]
  rw [if_neg hnotmem]
  simp [repoDigests, hda, hfresh]

/-- C10 witness: pulling `r@⟨[1,1,1,1,2]⟩` (a faithful registry, empty
local state) yields exactly the one repo-digest entry
`(r, ⟨[1,1,1,1,2]⟩)`. -/
theorem pull_by_digest_single_repo_digest_witness :
    alookup (⟨[1, 1, 1, 1, 2]⟩ : Digest)
        [((⟨[1, 1, 1, 1, 2]⟩ : Digest), [1, 1, 1, 1, 2])]
        = some [1, 1, 1, 1, 2]
      ∧ repoDigests
          (pull ⟨[], [(⟨[1, 1, 1, 1, 2]⟩, [1, 1, 1, 1, 2])],
              [(⟨[1]⟩, [1]), (⟨[2]⟩, [2])]⟩
            ⟨⟨[], []⟩, ⟨[], [], []⟩⟩
            ⟨['r'], none, some ⟨[1, 1, 1, 1, 2]⟩⟩).2.index
          ⟨[1, 1, 1, 1, 2]⟩
        = [(['r'], ⟨[1, 1, 1, 1, 2]⟩)] :=
  ⟨by decide,
    pull_by_digest_single_repo_digest
      ⟨[], [(⟨[1, 1, 1, 1, 2]⟩, [1, 1, 1, 1, 2])],
        [(⟨[1]⟩, [1]), (⟨[2]⟩, [2])]⟩
      ⟨⟨[], []⟩, ⟨[], [], []⟩⟩ ['r'] ⟨[1, 1, 1, 1, 2]⟩
      ⟨⟨[1]⟩, [⟨[2]⟩]⟩ [1, 1, 1, 1, 2]
      (by decide) (by decide) (by decide) (by decide) (by decide)⟩

theorem refcount_pos_of_tag (idx : ImageStore) (k : RepoName × TagName)
    (d : Digest) (h : (k, d) ∈ idx.tagAssocs) : ¬ refcount idx d = 0 := by
  intro h0
  unfold refcount at h0
  have hmf : (k, d) ∈ idx.tagAssocs.filter (fun a => decide (a.2 = d)) :=
    List.mem_filter.mpr ⟨h, by simp⟩
  have hlen := List.length_pos.mpr (List.ne_nil_of_mem hmf)
  omega

theorem dropIfUnref_of_refcount_ne (ls : LocalState) (d : Digest)
    (h : ¬ refcount ls.index d = 0) : dropIfUnref ls d = ls := by
  unfold dropIfUnref
  exact if_neg h

theorem dropIfUnref_digestAssocs (ls : LocalState) (d : Digest) :
    (dropIfUnref ls d).index.digestAssocs = ls.index.digestAssocs := by
  unfold dropIfUnref
  by_cases h : refcount ls.index d = 0
  · rw [if_pos h]
    unfold purgeRecord
    cases alookup d ls.index.records <;> rfl
  · rw [if_neg h]

theorem filter_sub_nil {α : Type} (l : List α) (p g : α → Bool)
    (h : l.filter p = []) : (l.filter g).filter p = [] := by
  apply List.eq_nil_iff_forall_not_mem.mpr
  intro a ha
  have h1 := List.mem_filter.mp ha
  have h2 := List.mem_filter.mp h1.1
  have h3 : a ∈ l.filter p := List.mem_filter.mpr ⟨h2.1, h1.2⟩
  rw [h] at h3
  cases h3

theorem filter_neg_nil {α : Type} (l : List α) (p : α → Bool) :
    (l.filter (fun a => !(p a))).filter p = [] := by
  apply List.eq_nil_iff_forall_not_mem.mpr
  intro a ha
  have h1 := List.mem_filter.mp ha
  have h2 := List.mem_filter.mp h1.1
  rw [h1.2] at h2
  simp at h2

theorem filter_negor_nil {α : Type} (l : List α) (p q : α → Bool) :
    (l.filter (fun a => !(p a) || !(q a))).filter (fun a => p a && q a)
      = [] := by
  apply List.eq_nil_iff_forall_not_mem.mpr
  intro a ha
  have h1 := List.mem_filter.mp ha
  have h2 := List.mem_filter.mp h1.1
  simp only [Bool.and_eq_true] at h1
  rw [h1.2.1, h1.2.2] at h2
  simp at h2

theorem tagfilter_removeKey_nil (l : List ((RepoName × TagName) × Digest))
    (k : RepoName × TagName) (d : Digest)
    (h : l.filter (fun a => decide (a.2 = d)) = [(k, d)]) :
    (removeKey k l).filter (fun a => decide (a.2 = d)) = [] := by
  apply List.eq_nil_iff_forall_not_mem.mpr
  intro a ha
  have h1 := List.mem_filter.mp ha
  have h2 := List.mem_filter.mp h1.1
  have h3 : a ∈ l.filter (fun a => decide (a.2 = d)) :=
    List.mem_filter.mpr ⟨h2.1, h1.2⟩
  rw [h] at h3
  have h4 : a = (k, d) := by simpa using h3
  rw [h4] at h2
  simp at h2

/-- A tag removal under which some other tag association still resolves to
the image: the removal succeeds, only that tag key disappears, and the
records are untouched. -/
theorem removeImageByTag_survivor (ls : LocalState) (repo : RepoName)
    (tag : TagName) (d : Digest) (k : RepoName × TagName)
    (h : alookup (repo, tag) ls.index.tagAssocs = some d)
    (hk : alookup k (removeKey (repo, tag) ls.index.tagAssocs) = some d) :
    delOk (removeImageByTag ls repo tag) = true
      ∧ (delState ls (removeImageByTag ls repo tag)).index.tagAssocs
        = removeKey (repo, tag) ls.index.tagAssocs
      ∧ (delState ls (removeImageByTag ls repo tag)).index.records
        = ls.index.records := by
  have hmem := alookup_some_mem hk
  by_cases hc : (removeKey (repo, tag) ls.index.tagAssocs).any
      (fun a => decide (a.1.1 = repo) && decide (a.2 = d)) = true
  · have hrc : ¬ refcount
        ⟨removeKey (repo, tag) ls.index.tagAssocs,
          ls.index.digestAssocs, ls.index.records⟩ d = 0 :=
      refcount_pos_of_tag _ k d hmem
    have hdrop := dropIfUnref_of_refcount_ne
      ⟨ls.store, ⟨removeKey (repo, tag) ls.index.tagAssocs,
        ls.index.digestAssocs, ls.index.records⟩⟩ d hrc
    simp [removeImageByTag, h, hc, delOk, delState, hdrop]
  · have hc' : (removeKey (repo, tag) ls.index.tagAssocs).any
        (fun a => decide (a.1.1 = repo) && decide (a.2 = d)) = false :=
      Bool.eq_false_iff.mpr hc
    have hrc : ¬ refcount
        ⟨removeKey (repo, tag) ls.index.tagAssocs,
          ls.index.digestAssocs.filter
            (fun p => !(decide (p.1 = repo)) || !(decide (p.2 = d))),
          ls.index.records⟩ d = 0 :=
      refcount_pos_of_tag _ k d hmem
    have hdrop := dropIfUnref_of_refcount_ne
      ⟨ls.store, ⟨removeKey (repo, tag) ls.index.tagAssocs,
        ls.index.digestAssocs.filter
          (fun p => !(decide (p.1 = repo)) || !(decide (p.2 = d))),
        ls.index.records⟩⟩ d hrc
    simp [removeImageByTag, h, hc', delOk, delState, hdrop]

/-- C5: with an image record referenced by two distinct tags on the same
digest, deleting one tag leaves the other tag resolving to the record; and
deleting a tag that is the only tag association resolving to the record,
when no digest association for it remains, succeeds and removes the image
record, after which resolving it by its content ID fails. -/
theorem delete_tag_shared_record :
    (∀ (ls : LocalState) (rA rB : RepoName) (tA tB : TagName) (d : Digest)
        (rec : ImageRecord),
      alookup d ls.index.records = some rec →
      alookup (rA, tA) ls.index.tagAssocs = some d →
      alookup (rB, tB) ls.index.tagAssocs = some d →
      (rA, tA) ≠ (rB, tB) →
      delOk (removeImageByTag ls rB tB) = true
        ∧ (delState ls (removeImageByTag ls rB tB)).index.Resolve
            ⟨rA, some tA, none⟩ = some rec)
    ∧ (∀ (ls : LocalState) (rA : RepoName) (tA : TagName) (d : Digest)
        (rec : ImageRecord),
      alookup d ls.index.records = some rec →
      alookup (rA, tA) ls.index.tagAssocs = some d →
      ls.index.tagAssocs.filter (fun a => decide (a.2 = d))
          = [((rA, tA), d)] →
      ls.index.digestAssocs.filter (fun a => decide (a.2 = d)) = [] →
      delOk (removeImageByTag ls rA tA) = true
        ∧ alookup d (delState ls (removeImageByTag ls rA tA)).index.records
          = none) := by
  constructor
  · intro ls rA rB tA tB d rec hrec hA hB hne
    have hA' : alookup (rA, tA) (removeKey (rB, tB) ls.index.tagAssocs)
        = some d := by
      rw [alookup_removeKey_ne _ hne]
      exact hA
    have hs := removeImageByTag_survivor ls rB tB d (rA, tA) hB hA'
    refine ⟨hs.1, ?_⟩
    have hresolve : ImageStore.Resolve
        (delState ls (removeImageByTag ls rB tB)).index ⟨rA, some tA, none⟩
        = alookup d (delState ls (removeImageByTag ls rB tB)).index.records := by
      simp [ImageStore.Resolve, hs.2.1, hA']
    rw [hresolve, hs.2.2, hrec]
  · intro ls rA tA d rec hrec hA hlast hnodig
    have htag0 : (removeKey (rA, tA) ls.index.tagAssocs).filter
        (fun a => decide (a.2 = d)) = [] :=
      tagfilter_removeKey_nil _ _ _ hlast
    have hany : (removeKey (rA, tA) ls.index.tagAssocs).any
        (fun a => decide (a.1.1 = rA) && decide (a.2 = d)) = false := by
      cases hx : (removeKey (rA, tA) ls.index.tagAssocs).any
          (fun a => decide (a.1.1 = rA) && decide (a.2 = d)) with
      | false => rfl
      | true =>
        obtain ⟨a, hamem, hap⟩ := List.any_eq_true.mp hx
        simp only [Bool.and_eq_true] at hap
        have hin : a ∈ (removeKey (rA, tA) ls.index.tagAssocs).filter
            (fun a => decide (a.2 = d)) :=
          List.mem_filter.mpr ⟨hamem, hap.2⟩
        rw [htag0] at hin
        cases hin
    have hdig0 : (ls.index.digestAssocs.filter
        (fun p => !(decide (p.1 = rA)) || !(decide (p.2 = d)))).filter
        (fun a => decide (a.2 = d)) = [] :=
      filter_sub_nil _ _ _ hnodig
    have hrc0 : refcount ⟨removeKey (rA, tA) ls.index.tagAssocs,
        ls.index.digestAssocs.filter
          (fun p => !(decide (p.1 = rA)) || !(decide (p.2 = d))),
        ls.index.records⟩ d = 0 := by
      unfold refcount
      simp [htag0, hdig0]
    constructor
    · unfold removeImageByTag
      rw [hA]
      rfl
    · simp [removeImageByTag, hA, hany, delState, dropIfUnref, hrc0,
        purgeRecord, hrec, alookup_removeKey_self]

/-- C5 witness: both halves at genuine states.  First half: two tags `a:x`
and `a:y` on the digest `⟨[5]⟩` of one record — deleting `a:y` leaves `a:x`
resolving to the record.  Second half: `a:x` is the only tag association on
`⟨[5]⟩` and no digest association exists — deleting it succeeds and the
record is gone, so lookup by its content ID fails. -/
theorem delete_tag_shared_record_witness :
    ((delOk (removeImageByTag
          ⟨⟨[], []⟩, ⟨[((['a'], ['x']), ⟨[5]⟩), ((['a'], ['y']), ⟨[5]⟩)],
            [], [(⟨[5]⟩, ⟨[]⟩)]⟩⟩ ['a'] ['y']) = true
        ∧ (delState
            ⟨⟨[], []⟩, ⟨[((['a'], ['x']), ⟨[5]⟩), ((['a'], ['y']), ⟨[5]⟩)],
              [], [(⟨[5]⟩, ⟨[]⟩)]⟩⟩
            (removeImageByTag
              ⟨⟨[], []⟩, ⟨[((['a'], ['x']), ⟨[5]⟩), ((['a'], ['y']), ⟨[5]⟩)],
                [], [(⟨[5]⟩, ⟨[]⟩)]⟩⟩ ['a'] ['y'])).index.Resolve
            ⟨['a'], some ['x'], none⟩ = some ⟨[]⟩))
    ∧ (([((['a'], ['x']), ⟨[5]⟩)]
          : List ((RepoName × TagName) × Digest)).filter
            (fun a => decide (a.2 = (⟨[5]⟩ : Digest)))
          = [((['a'], ['x']), ⟨[5]⟩)]
        ∧ delOk (removeImageByTag
            ⟨⟨[], []⟩, ⟨[((['a'], ['x']), ⟨[5]⟩)], [], [(⟨[5]⟩, ⟨[]⟩)]⟩⟩
            ['a'] ['x']) = true
        ∧ alookup (⟨[5]⟩ : Digest)
            (delState
              ⟨⟨[], []⟩, ⟨[((['a'], ['x']), ⟨[5]⟩)], [], [(⟨[5]⟩, ⟨[]⟩)]⟩⟩
              (removeImageByTag
                ⟨⟨[], []⟩, ⟨[((['a'], ['x']), ⟨[5]⟩)], [],
                  [(⟨[5]⟩, ⟨[]⟩)]⟩⟩ ['a'] ['x'])).index.records
          = none) :=
  ⟨delete_tag_shared_record.1
      ⟨⟨[], []⟩, ⟨[((['a'], ['x']), ⟨[5]⟩), ((['a'], ['y']), ⟨[5]⟩)],
        [], [(⟨[5]⟩, ⟨[]⟩)]⟩⟩
      ['a'] ['a'] ['x'] ['y'] ⟨[5]⟩ ⟨[]⟩
      (by decide) (by decide) (by decide) (by decide),
    by decide,
    (delete_tag_shared_record.2
      ⟨⟨[], []⟩, ⟨[((['a'], ['x']), ⟨[5]⟩)], [], [(⟨[5]⟩, ⟨[]⟩)]⟩⟩
      ['a'] ['x'] ⟨[5]⟩ ⟨[]⟩
      (by decide) (by decide) (by decide) (by decide)).1,
    (delete_tag_shared_record.2
      ⟨⟨[], []⟩, ⟨[((['a'], ['x']), ⟨[5]⟩)], [], [(⟨[5]⟩, ⟨[]⟩)]⟩⟩
      ['a'] ['x'] ⟨[5]⟩ ⟨[]⟩
      (by decide) (by decide) (by decide) (by decide)).2⟩

/-- C6 counterexample: an image pulled by digest into repository `a` (digest
association `(a, ⟨[5]⟩)`) and tagged `a:s` and `b:o`; removing the tag
`a:s` — whose repository holds no other tag for the image — also removes
the digest association, which the claim says survives any tag removal
(mirroring `TestDeleteImageWithDigestAndMultiRepoTag`). -/
theorem remove_tag_drops_digest_assoc_counterexample :
    delOk (removeImageByTag
        ⟨⟨[], []⟩, ⟨[((['a'], ['s']), ⟨[5]⟩), ((['b'], ['o']), ⟨[5]⟩)],
          [(['a'], ⟨[5]⟩)], [(⟨[5]⟩, ⟨[]⟩)]⟩⟩ ['a'] ['s']) = true
    ∧ ((['a'], (⟨[5]⟩ : Digest)) ∈
        ([(['a'], ⟨[5]⟩)] : List (RepoName × Digest)))
    ∧ (delState
        ⟨⟨[], []⟩, ⟨[((['a'], ['s']), ⟨[5]⟩), ((['b'], ['o']), ⟨[5]⟩)],
          [(['a'], ⟨[5]⟩)], [(⟨[5]⟩, ⟨[]⟩)]⟩⟩
        (removeImageByTag
          ⟨⟨[], []⟩, ⟨[((['a'], ['s']), ⟨[5]⟩), ((['b'], ['o']), ⟨[5]⟩)],
            [(['a'], ⟨[5]⟩)], [(⟨[5]⟩, ⟨[]⟩)]⟩⟩
          ['a'] ['s'])).index.digestAssocs = [] := by
  decide

/-- C6 (amended): removing an image by tag removes that tag association;
the repository's digest associations for the image survive exactly while
another tag association of that repository still resolves to it — when the
removed tag was the last such tag, the repository's digest associations for
the image are removed as well; and the explicit `RemoveDigestAssociation`
fails with `InUse` while any tag association of the repository still
resolves to the digest. -/
theorem remove_tag_digest_assoc_amended (ls : LocalState) (rA : RepoName)
    (tA tB : TagName) (d : Digest)
    (hA : alookup (rA, tA) ls.index.tagAssocs = some d) :
    delOk (removeImageByTag ls rA tA) = true
    ∧ ((removeKey (rA, tA) ls.index.tagAssocs).any
          (fun a => decide (a.1.1 = rA) && decide (a.2 = d)) = false →
        (delState ls (removeImageByTag ls rA tA)).index.digestAssocs.filter
          (fun p => decide (p.1 = rA) && decide (p.2 = d)) = [])
    ∧ (alookup (rA, tB) (removeKey (rA, tA) ls.index.tagAssocs) = some d →
        (rA, d) ∈ ls.index.digestAssocs →
        (rA, d) ∈ (delState ls (removeImageByTag ls rA tA)).index.digestAssocs)
    ∧ ((rA, d) ∈ ls.index.digestAssocs →
        ls.index.tagAssocs.any
          (fun a => decide (a.1.1 = rA) && decide (a.2 = d)) = true →
        removeDigestAssociation ls rA d = .error .inUse) := by
  refine ⟨?_, ?_, ?_, ?_⟩
  · unfold removeImageByTag
    rw [hA]
    rfl
  · intro hany
    have hstate : delState ls (removeImageByTag ls rA tA)
        = dropIfUnref ⟨ls.store,
            ⟨removeKey (rA, tA) ls.index.tagAssocs,
              ls.index.digestAssocs.filter
                (fun p => !(decide (p.1 = rA)) || !(decide (p.2 = d))),
              ls.index.records⟩⟩ d := by
      simp [removeImageByTag, hA, hany, delState]
    rw [hstate, dropIfUnref_digestAssocs]
    exact filter_negor_nil _ _ _
  · intro hother hmem
    have hany : (removeKey (rA, tA) ls.index.tagAssocs).any
        (fun a => decide (a.1.1 = rA) && decide (a.2 = d)) = true := by
      apply List.any_eq_true.mpr
      exact ⟨((rA, tB), d), alookup_some_mem hother, by simp⟩
    have hstate : delState ls (removeImageByTag ls rA tA)
        = dropIfUnref ⟨ls.store,
            ⟨removeKey (rA, tA) ls.index.tagAssocs,
              ls.index.digestAssocs, ls.index.records⟩⟩ d := by
      simp [removeImageByTag, hA, hany, delState]
    rw [hstate, dropIfUnref_digestAssocs]
    exact hmem
  · intro hmem hany
    simp [removeDigestAssociation, hmem, hany]

/-- C6 (amended) witness: one tag `a:s` and the digest association
`(a, ⟨[5]⟩)`: removal drops the digest association (the last-tag branch),
and `RemoveDigestAssociation` while the tag is alive answers `InUse`. -/
theorem remove_tag_digest_assoc_amended_witness :
    alookup ((['a'], ['s']) : RepoName × TagName)
        [(((['a'], ['s']) : RepoName × TagName), (⟨[5]⟩ : Digest))]
        = some ⟨[5]⟩
    ∧ (delOk (removeImageByTag
          ⟨⟨[], []⟩, ⟨[((['a'], ['s']), ⟨[5]⟩)], [(['a'], ⟨[5]⟩)],
            [(⟨[5]⟩, ⟨[]⟩)]⟩⟩ ['a'] ['s']) = true
      ∧ ((removeKey ((['a'], ['s']) : RepoName × TagName)
            [((['a'], ['s']), (⟨[5]⟩ : Digest))]).any
            (fun a => decide (a.1.1 = ['a']) && decide (a.2 = (⟨[5]⟩ : Digest)))
              = false →
          (delState
            ⟨⟨[], []⟩, ⟨[((['a'], ['s']), ⟨[5]⟩)], [(['a'], ⟨[5]⟩)],
              [(⟨[5]⟩, ⟨[]⟩)]⟩⟩
            (removeImageByTag
              ⟨⟨[], []⟩, ⟨[((['a'], ['s']), ⟨[5]⟩)], [(['a'], ⟨[5]⟩)],
                [(⟨[5]⟩, ⟨[]⟩)]⟩⟩
              ['a'] ['s'])).index.digestAssocs.filter
            (fun p => decide (p.1 = ['a']) && decide (p.2 = (⟨[5]⟩ : Digest)))
            = [])
      ∧ (alookup ((['a'], ['z']) : RepoName × TagName)
            (removeKey ((['a'], ['s']) : RepoName × TagName)
              [((['a'], ['s']), (⟨[5]⟩ : Digest))]) = some ⟨[5]⟩ →
          (['a'], (⟨[5]⟩ : Digest)) ∈
            ([(['a'], ⟨[5]⟩)] : List (RepoName × Digest)) →
          (['a'], (⟨[5]⟩ : Digest)) ∈
            (delState
              ⟨⟨[], []⟩, ⟨[((['a'], ['s']), ⟨[5]⟩)], [(['a'], ⟨[5]⟩)],
                [(⟨[5]⟩, ⟨[]⟩)]⟩⟩
              (removeImageByTag
                ⟨⟨[], []⟩, ⟨[((['a'], ['s']), ⟨[5]⟩)], [(['a'], ⟨[5]⟩)],
                  [(⟨[5]⟩, ⟨[]⟩)]⟩⟩
                ['a'] ['s'])).index.digestAssocs)
      ∧ ((['a'], (⟨[5]⟩ : Digest)) ∈
            ([(['a'], ⟨[5]⟩)] : List (RepoName × Digest)) →
          ([((['a'], ['s']), (⟨[5]⟩ : Digest))]
              : List ((RepoName × TagName) × Digest)).any
            (fun a => decide (a.1.1 = ['a']) && decide (a.2 = (⟨[5]⟩ : Digest)))
              = true →
          removeDigestAssociation
            ⟨⟨[], []⟩, ⟨[((['a'], ['s']), ⟨[5]⟩)], [(['a'], ⟨[5]⟩)],
              [(⟨[5]⟩, ⟨[]⟩)]⟩⟩ ['a'] ⟨[5]⟩ = .error .inUse)) :=
  ⟨by decide,
    remove_tag_digest_assoc_amended
      ⟨⟨[], []⟩, ⟨[((['a'], ['s']), ⟨[5]⟩)], [(['a'], ⟨[5]⟩)],
        [(⟨[5]⟩, ⟨[]⟩)]⟩⟩ ['a'] ['s'] ['z'] ⟨[5]⟩ (by decide)⟩

/-- C7 counterexample: an image record pointed at by one tag association
and one digest association of the same repository is deleted by content ID
without any force flag — the claim says such a delete must fail (mirroring
`TestDeleteImageByIDOnlyPulledByDigest`, which tags the image and still
deletes it unforced by ID). -/
theorem unforced_delete_by_id_succeeds_counterexample :
    alookup (⟨[5]⟩ : Digest)
        ([(⟨[5]⟩, ⟨[⟨[9]⟩]⟩)] : List (Digest × ImageRecord))
        = some ⟨[⟨[9]⟩]⟩
    ∧ alookup ((['r'], ['s']) : RepoName × TagName)
        ([((['r'], ['s']), ⟨[5]⟩)] : List ((RepoName × TagName) × Digest))
        = some ⟨[5]⟩
    ∧ ((['r'], (⟨[5]⟩ : Digest)) ∈ ([(['r'], ⟨[5]⟩)] : List (RepoName × Digest)))
    ∧ delOk (deleteById
        ⟨⟨[(⟨[9]⟩, [9])], []⟩,
          ⟨[((['r'], ['s']), ⟨[5]⟩)], [(['r'], ⟨[5]⟩)],
            [(⟨[5]⟩, ⟨[⟨[9]⟩]⟩)]⟩⟩ ⟨[5]⟩ false) = true := by
  decide

/-- C7 (amended): deleting an image record by content ID without force is
refused when the remaining references exceed one and are not confined to a
single repository with at most one tag; with force set, the delete
succeeds, every tag and digest association to the record is severed, the
record is purged, and a blob of the record that no other record references
disappears from the blob store. -/
theorem delete_by_id_amended (ls : LocalState) (d : Digest)
    (rec : ImageRecord) (b : Digest)
    (hrec : alookup d ls.index.records = some rec) :
    (isSingleReference
          (ls.index.tagAssocs.filter (fun a => decide (a.2 = d)))
          (ls.index.digestAssocs.filter (fun a => decide (a.2 = d))) = false →
        (ls.index.tagAssocs.filter (fun a => decide (a.2 = d))).length
          + (ls.index.digestAssocs.filter (fun a => decide (a.2 = d))).length
            > 1 →
        deleteById ls d false = .error .conflict)
    ∧ delOk (deleteById ls d true) = true
    ∧ (delState ls (deleteById ls d true)).index.tagAssocs.filter
        (fun a => decide (a.2 = d)) = []
    ∧ (delState ls (deleteById ls d true)).index.digestAssocs.filter
        (fun a => decide (a.2 = d)) = []
    ∧ alookup d (delState ls (deleteById ls d true)).index.records = none
    ∧ (b ∈ rec.blobs →
        (removeKey d ls.index.records).all
          (fun q => !(decide (b ∈ q.2.blobs))) = true →
        (delState ls (deleteById ls d true)).store.Exists b = false) := by
  have hsever_records : (sever ls.index d).records = ls.index.records := rfl
  have hforce : deleteById ls d true
      = .ok ⟨gcBlobs ls.store
          ⟨(sever ls.index d).tagAssocs, (sever ls.index d).digestAssocs,
            removeKey d ls.index.records⟩ rec,
        ⟨(sever ls.index d).tagAssocs, (sever ls.index d).digestAssocs,
          removeKey d ls.index.records⟩⟩ := by
    unfold deleteById
    rw [hrec]
    simp only [Bool.false_and, Bool.and_eq_true]
    unfold purgeRecord
    simp only [hsever_records, hrec]
    rfl
  refine ⟨?_, ?_, ?_, ?_, ?_, ?_⟩
  · intro hs hlen
    unfold deleteById
    rw [hrec]
    rw [if_pos]
    simp only [hs, Bool.not_false, Bool.not_true, Bool.and_true,
      Bool.and_false, Bool.true_and, Bool.and_eq_true, decide_eq_true_eq]
    exact hlen
  · rw [hforce]
    rfl
  · rw [hforce]
    exact filter_neg_nil _ _
  · rw [hforce]
    exact filter_neg_nil _ _
  · rw [hforce]
    exact alookup_removeKey_self _ _
  · intro hb hall
    have hany2 : (removeKey d ls.index.records).any
        (fun q => decide (b ∈ q.2.blobs)) = false := by
      cases hx : (removeKey d ls.index.records).any
          (fun q => decide (b ∈ q.2.blobs)) with
      | false => rfl
      | true =>
        obtain ⟨q, hq, hqp⟩ := List.any_eq_true.mp hx
        have hq2 := List.all_eq_true.mp hall q hq
        rw [hqp] at hq2
        cases hq2
    rw [hforce]
    simp only [delState]
    unfold BlobStore.Exists gcBlobs
    rw [alookup_filter_none]
    · rfl
    · intro v
      simp [hany2, hb]

/-- C7 (amended) witness: references spanning two repositories (tag `a:s`,
digest association in `b`) block the unforced delete by ID, while the
forced delete severs them, purges the record, and garbage-collects its
exclusively-owned blob `⟨[9]⟩`. -/
theorem delete_by_id_amended_witness :
    alookup (⟨[5]⟩ : Digest)
        ([(⟨[5]⟩, ⟨[⟨[9]⟩]⟩)] : List (Digest × ImageRecord))
        = some ⟨[⟨[9]⟩]⟩
    ∧ ((isSingleReference
          (([((['a'], ['s']), ⟨[5]⟩)]
              : List ((RepoName × TagName) × Digest)).filter
            (fun a => decide (a.2 = (⟨[5]⟩ : Digest))))
          (([(['b'], ⟨[5]⟩)] : List (RepoName × Digest)).filter
            (fun a => decide (a.2 = (⟨[5]⟩ : Digest)))) = false →
        (([((['a'], ['s']), ⟨[5]⟩)]
            : List ((RepoName × TagName) × Digest)).filter
          (fun a => decide (a.2 = (⟨[5]⟩ : Digest)))).length
          + (([(['b'], ⟨[5]⟩)] : List (RepoName × Digest)).filter
            (fun a => decide (a.2 = (⟨[5]⟩ : Digest)))).length > 1 →
        deleteById
          ⟨⟨[(⟨[9]⟩, [9])], []⟩,
            ⟨[((['a'], ['s']), ⟨[5]⟩)], [(['b'], ⟨[5]⟩)],
              [(⟨[5]⟩, ⟨[⟨[9]⟩]⟩)]⟩⟩ ⟨[5]⟩ false = .error .conflict)
      ∧ delOk (deleteById
          ⟨⟨[(⟨[9]⟩, [9])], []⟩,
            ⟨[((['a'], ['s']), ⟨[5]⟩)], [(['b'], ⟨[5]⟩)],
              [(⟨[5]⟩, ⟨[⟨[9]⟩]⟩)]⟩⟩ ⟨[5]⟩ true) = true
      ∧ (delState
          ⟨⟨[(⟨[9]⟩, [9])], []⟩,
            ⟨[((['a'], ['s']), ⟨[5]⟩)], [(['b'], ⟨[5]⟩)],
              [(⟨[5]⟩, ⟨[⟨[9]⟩]⟩)]⟩⟩
          (deleteById
            ⟨⟨[(⟨[9]⟩, [9])], []⟩,
              ⟨[((['a'], ['s']), ⟨[5]⟩)], [(['b'], ⟨[5]⟩)],
                [(⟨[5]⟩, ⟨[⟨[9]⟩]⟩)]⟩⟩ ⟨[5]⟩ true)).index.tagAssocs.filter
          (fun a => decide (a.2 = (⟨[5]⟩ : Digest))) = []
      ∧ (delState
          ⟨⟨[(⟨[9]⟩, [9])], []⟩,
            ⟨[((['a'], ['s']), ⟨[5]⟩)], [(['b'], ⟨[5]⟩)],
              [(⟨[5]⟩, ⟨[⟨[9]⟩]⟩)]⟩⟩
          (deleteById
            ⟨⟨[(⟨[9]⟩, [9])], []⟩,
              ⟨[((['a'], ['s']), ⟨[5]⟩)], [(['b'], ⟨[5]⟩)],
                [(⟨[5]⟩, ⟨[⟨[9]⟩]⟩)]⟩⟩ ⟨[5]⟩ true)).index.digestAssocs.filter
          (fun a => decide (a.2 = (⟨[5]⟩ : Digest))) = []
      ∧ alookup (⟨[5]⟩ : Digest)
          (delState
            ⟨⟨[(⟨[9]⟩, [9])], []⟩,
              ⟨[((['a'], ['s']), ⟨[5]⟩)], [(['b'], ⟨[5]⟩)],
                [(⟨[5]⟩, ⟨[⟨[9]⟩]⟩)]⟩⟩
            (deleteById
              ⟨⟨[(⟨[9]⟩, [9])], []⟩,
                ⟨[((['a'], ['s']), ⟨[5]⟩)], [(['b'], ⟨[5]⟩)],
                  [(⟨[5]⟩, ⟨[⟨[9]⟩]⟩)]⟩⟩ ⟨[5]⟩ true)).index.records = none
      ∧ ((⟨[9]⟩ : Digest) ∈ (⟨[⟨[9]⟩]⟩ : ImageRecord).blobs →
          (removeKey (⟨[5]⟩ : Digest)
            ([(⟨[5]⟩, ⟨[⟨[9]⟩]⟩)] : List (Digest × ImageRecord))).all
            (fun q => !(decide ((⟨[9]⟩ : Digest) ∈ q.2.blobs))) = true →
          (delState
            ⟨⟨[(⟨[9]⟩, [9])], []⟩,
              ⟨[((['a'], ['s']), ⟨[5]⟩)], [(['b'], ⟨[5]⟩)],
                [(⟨[5]⟩, ⟨[⟨[9]⟩]⟩)]⟩⟩
            (deleteById
              ⟨⟨[(⟨[9]⟩, [9])], []⟩,
                ⟨[((['a'], ['s']), ⟨[5]⟩)], [(['b'], ⟨[5]⟩)],
                  [(⟨[5]⟩, ⟨[⟨[9]⟩]⟩)]⟩⟩ ⟨[5]⟩ true)).store.Exists ⟨[9]⟩
            = false)) :=
  ⟨by decide,
    delete_by_id_amended
      ⟨⟨[(⟨[9]⟩, [9])], []⟩,
        ⟨[((['a'], ['s']), ⟨[5]⟩)], [(['b'], ⟨[5]⟩)],
          [(⟨[5]⟩, ⟨[⟨[9]⟩]⟩)]⟩⟩ ⟨[5]⟩ ⟨[⟨[9]⟩]⟩ ⟨[9]⟩ (by decide)⟩

theorem splitAtFirst_append (c : Char) (a b : List Char) (h : c ∉ a) :
    splitAtFirst c (a ++ c :: b) = some (a, b) := by
  induction a with
  | nil => simp [splitAtFirst]
  | cons x xs ih =>
    have hx : ¬ x = c := by
      intro he
      apply h
      rw [← he]
      exact List.mem_cons_self x xs
    have hxs : c ∉ xs := fun hm => h (List.mem_cons_of_mem _ hm)
    simp [splitAtFirst, hx, ih hxs, List.cons_append]

theorem splitAtFirst_none (c : Char) (l : List Char) (h : c ∉ l) :
    splitAtFirst c l = none := by
  induction l with
  | nil => rfl
  | cons x xs ih =>
    have hx : ¬ x = c := by
      intro he
      apply h
      rw [← he]
      exact List.mem_cons_self x xs
    have hxs : c ∉ xs := fun hm => h (List.mem_cons_of_mem _ hm)
    simp [splitAtFirst, hx, ih hxs]

theorem splitAtFirst_eq_some (c : Char) :
    ∀ (l a b : List Char), splitAtFirst c l = some (a, b) →
      l = a ++ c :: b ∧ c ∉ a := by
  intro l
  induction l with
  | nil => intro a b h; simp [splitAtFirst] at h
  | cons x xs ih =>
    intro a b h
    by_cases hx : x = c
    · subst hx
      simp [splitAtFirst] at h
      obtain ⟨ha, hb⟩ := h
      subst ha
      subst hb
      exact ⟨rfl, List.not_mem_nil _⟩
    · simp only [splitAtFirst, if_neg hx] at h
      cases hsp : splitAtFirst c xs with
      | none => rw [hsp] at h; simp at h
      | some p =>
        rw [hsp] at h
        obtain ⟨p1, p2⟩ := p
        simp at h
        obtain ⟨ha, hb⟩ := h
        obtain ⟨hl, hm⟩ := ih p1 p2 hsp
        rw [← ha, ← hb, hl]
        refine ⟨by simp [List.cons_append], ?_⟩
        intro hmem
        rcases List.mem_cons.mp hmem with h1 | h1
        · exact hx h1.symm
        · exact hm h1

theorem not_mem_of_splitAtFirst_none (c : Char) :
    ∀ l : List Char, splitAtFirst c l = none → c ∉ l := by
  intro l
  induction l with
  | nil => intro _; exact List.not_mem_nil _
  | cons x xs ih =>
    intro h
    by_cases hx : x = c
    · subst hx
      simp [splitAtFirst] at h
    · simp only [splitAtFirst, if_neg hx] at h
      cases hsp : splitAtFirst c xs with
      | none =>
        intro hm
        rcases List.mem_cons.mp hm with h1 | h1
        · exact hx h1.symm
        · exact ih hsp h1
      | some p => rw [hsp] at h; simp at h

theorem revFindTag_append_colon (tagRev : List Char) :
    ∀ (nameRev acc : List Char),
      (∀ x ∈ tagRev, ¬ x = ':' ∧ ¬ x = '/') →
      revFindTag acc (tagRev ++ ':' :: nameRev)
        = some (nameRev.reverse, tagRev.reverse ++ acc) := by
  induction tagRev with
  | nil => intro nameRev acc _; simp [revFindTag]
  | cons x xs ih =>
    intro nameRev acc h
    have hx := h x (List.mem_cons_self _ _)
    have ihx := ih nameRev (x :: acc)
      (fun y hy => h y (List.mem_cons_of_mem _ hy))
    simp [revFindTag, hx.1, hx.2, ihx, List.cons_append, List.append_assoc]

theorem revFindTag_none_slash (pre : List Char) :
    ∀ (rest acc : List Char), (∀ x ∈ pre, ¬ x = ':' ∧ ¬ x = '/') →
      revFindTag acc (pre ++ '/' :: rest) = none := by
  induction pre with
  | nil => intro rest acc _; simp [revFindTag]
  | cons x xs ih =>
    intro rest acc h
    have hx := h x (List.mem_cons_self _ _)
    simp [revFindTag, hx.1, hx.2,
      ih rest (x :: acc) (fun y hy => h y (List.mem_cons_of_mem _ hy)),
      List.cons_append]

theorem revFindTag_none_extend (m : List Char) :
    ∀ (acc ext : List Char), revFindTag acc m = none → '/' ∈ m →
      revFindTag acc (m ++ ext) = none := by
  induction m with
  | nil => intro acc ext _ hm; cases hm
  | cons x xs ih =>
    intro acc ext h hm
    by_cases hc : x = ':'
    · rw [hc] at h
      simp [revFindTag] at h
    · by_cases hs : x = '/'
      · simp [revFindTag, hc, hs, List.cons_append]
      · have hm2 : '/' ∈ xs := by
          rcases List.mem_cons.mp hm with h1 | h1
          · exact absurd h1.symm hs
          · exact h1
        simp only [revFindTag, if_neg hc, if_neg hs, List.cons_append] at h ⊢
        exact ih _ _ h hm2

theorem no_colon_of_revFindTag_none (l : List Char) :
    ∀ acc : List Char, revFindTag acc l = none → '/' ∉ l → ':' ∉ l := by
  induction l with
  | nil => intro acc _ _; exact List.not_mem_nil _
  | cons x xs ih =>
    intro acc h hs
    by_cases hc : x = ':'
    · rw [hc] at h
      simp [revFindTag] at h
    · have hsl : ¬ x = '/' := by
        intro he
        apply hs
        rw [← he]
        exact List.mem_cons_self x xs
      simp only [revFindTag, if_neg hc, if_neg hsl] at h
      intro hm
      rcases List.mem_cons.mp hm with h1 | h1
      · exact hc h1.symm
      · exact ih _ h (fun hm2 => hs (List.mem_cons_of_mem _ hm2)) h1

theorem no_colon_prefix_of_none (l : List Char) :
    ∀ (acc ext : List Char), revFindTag acc (l ++ ext) = none →
      (∀ x ∈ l, ¬ x = '/') → ':' ∉ l := by
  induction l with
  | nil => intro acc ext _ _; exact List.not_mem_nil _
  | cons x xs ih =>
    intro acc ext h hs
    by_cases hc : x = ':'
    · rw [List.cons_append, hc] at h
      simp [revFindTag] at h
    · have hsl := hs x (List.mem_cons_self _ _)
      rw [List.cons_append] at h
      simp only [revFindTag, if_neg hc, if_neg hsl] at h
      intro hm
      rcases List.mem_cons.mp hm with h1 | h1
      · exact hc h1.symm
      · exact ih _ _ h (fun y hy => hs y (List.mem_cons_of_mem _ hy)) h1

theorem not_mem_of_all_valid (l : List Char) (p : Char → Bool) (c : Char)
    (hall : l.all p = true) (hc : p c = false) : c ∉ l := by
  intro hm
  have hx := List.all_eq_true.mp hall c hm
  rw [hc] at hx
  cases hx

theorem any_slash_mid (a b : List Char) :
    (a ++ '/' :: b).any (fun c => decide (c = '/')) = true := by
  induction a with
  | nil => simp
  | cons x xs ih => simp [ih]

theorem splitAtFirst_defaultPrefix (x : List Char) :
    splitAtFirst '/' (defaultDomain ++ '/' :: officialRepo ++ '/' :: x)
      = some (defaultDomain, officialRepo ++ '/' :: x) := by
  have h := splitAtFirst_append '/' defaultDomain (officialRepo ++ '/' :: x)
    (by decide)
  simpa [List.cons_append, List.append_assoc] using h

/-- The full default prefix re-parses as the default domain followed by a
path that still contains a slash, so normalization of an already normalized
name changes nothing. -/
theorem normalizeName_defaultPrefix (x : List Char) :
    normalizeName (defaultDomain ++ '/' :: officialRepo ++ '/' :: x)
      = defaultDomain ++ '/' :: officialRepo ++ '/' :: x := by
  unfold normalizeName
  simp only [splitAtFirst_defaultPrefix]
  rw [if_pos (by decide : looksLikeDomain defaultDomain = true)]
  rw [if_neg]
  simp [any_slash_mid]

theorem normalizeName_idem (nm : List Char) :
    normalizeName (normalizeName nm) = normalizeName nm := by
  cases hsp : splitAtFirst '/' nm with
  | none =>
    have hstep : normalizeName nm
        = defaultDomain ++ '/' :: officialRepo ++ '/' :: nm := by
      unfold normalizeName
      simp only [hsp]
    rw [hstep, normalizeName_defaultPrefix]
  | some p =>
    by_cases hdom : looksLikeDomain p.1 = true
    · by_cases hc2 : (decide (p.1 = defaultDomain)
          && !(p.2.any (fun c => decide (c = '/')))) = true
      · have hstep : normalizeName nm
            = defaultDomain ++ '/' :: officialRepo ++ '/' :: p.2 := by
          unfold normalizeName
          simp only [hsp]
          rw [if_pos hdom, if_pos hc2]
        rw [hstep, normalizeName_defaultPrefix]
      · have hstep : normalizeName nm = nm := by
          unfold normalizeName
          simp only [hsp]
          rw [if_pos hdom, if_neg hc2]
        rw [hstep]
        unfold normalizeName
        simp only [hsp]
        rw [if_pos hdom, if_neg hc2]
    · have hstep : normalizeName nm = defaultDomain ++ '/' :: nm := by
        unfold normalizeName
        simp only [hsp]
        rw [if_neg hdom]
      obtain ⟨hl, _⟩ := splitAtFirst_eq_some '/' nm p.1 p.2 hsp
      rw [hstep]
      unfold normalizeName
      simp only [splitAtFirst_append '/' defaultDomain nm (by decide)]
      rw [if_pos (by decide : looksLikeDomain defaultDomain = true)]
      rw [if_neg]
      rw [hl]
      simp [any_slash_mid]

theorem any_slash_eq_false_not_mem (l : List Char)
    (h : l.any (fun c => decide (c = '/')) = false) : '/' ∉ l := by
  intro hm
  have hx : l.any (fun c => decide (c = '/')) = true :=
    List.any_eq_true.mpr ⟨'/', hm, by simp⟩
  rw [h] at hx
  cases hx

/-- Normalization preserves the well-formedness of a repository name:
nonempty, valid characters, and no colon after the last slash. -/
theorem validRawName_normalizeName (nm : List Char)
    (hne : nm.isEmpty = false) (hall : nm.all validNameChar = true)
    (hnt : revFindTag [] nm.reverse = none) :
    (normalizeName nm).isEmpty = false
    ∧ (normalizeName nm).all validNameChar = true
    ∧ revFindTag [] (normalizeName nm).reverse = none := by
  have hDall : defaultDomain.all validNameChar = true := by decide
  have hOall : officialRepo.all validNameChar = true := by decide
  have hslv : validNameChar '/' = true := by decide
  cases hsp : splitAtFirst '/' nm with
  | none =>
    have hstep : normalizeName nm
        = defaultDomain ++ '/' :: officialRepo ++ '/' :: nm := by
      unfold normalizeName
      simp only [hsp]
    have hns : '/' ∉ nm := not_mem_of_splitAtFirst_none '/' nm hsp
    have hnsr : '/' ∉ nm.reverse := fun hm => hns (List.mem_reverse.mp hm)
    have hncr : ':' ∉ nm.reverse :=
      no_colon_of_revFindTag_none nm.reverse [] hnt hnsr
    rw [hstep]
    refine ⟨rfl, ?_, ?_⟩
    · simp [List.all_append, List.all_cons, hDall, hOall, hslv, hall]
    · have hrev : (defaultDomain ++ '/' :: officialRepo ++ '/' :: nm).reverse
          = nm.reverse
            ++ '/' :: (officialRepo.reverse ++ '/' :: defaultDomain.reverse) := by
        simp [List.reverse_append, List.cons_append, List.append_assoc]
      rw [hrev]
      exact revFindTag_none_slash nm.reverse _ []
        (fun x hx => ⟨fun hc => hncr (hc ▸ hx), fun hs => hnsr (hs ▸ hx)⟩)
  | some p =>
    obtain ⟨hl, hnp⟩ := splitAtFirst_eq_some '/' nm p.1 p.2 hsp
    by_cases hdom : looksLikeDomain p.1 = true
    · by_cases hc2 : (decide (p.1 = defaultDomain)
          && !(p.2.any (fun c => decide (c = '/')))) = true
      · have hstep : normalizeName nm
            = defaultDomain ++ '/' :: officialRepo ++ '/' :: p.2 := by
          unfold normalizeName
          simp only [hsp]
          rw [if_pos hdom, if_pos hc2]
        have hc2' : decide (p.1 = defaultDomain) = true
            ∧ (!(p.2.any (fun c => decide (c = '/')))) = true := by
          simpa only [Bool.and_eq_true] using hc2
        obtain ⟨hpd, hna⟩ := hc2'
        have hnapf : p.2.any (fun c => decide (c = '/')) = false := by
          cases hx : p.2.any (fun c => decide (c = '/')) with
          | false => rfl
          | true => rw [hx] at hna; cases hna
        have hns2 : '/' ∉ p.2 := any_slash_eq_false_not_mem p.2 hnapf
        have hall2 : p.2.all validNameChar = true := by
          rw [hl] at hall
          simp only [List.all_append, List.all_cons, Bool.and_eq_true] at hall
          exact hall.2.2
        have hntr : revFindTag [] (p.2.reverse ++ ('/' :: p.1.reverse))
            = none := by
          have hq := hnt
          rw [hl] at hq
          simpa [List.reverse_append, List.cons_append, List.append_assoc]
            using hq
        have hnc2 : ':' ∉ p.2.reverse :=
          no_colon_prefix_of_none p.2.reverse [] ('/' :: p.1.reverse) hntr
            (fun x hx => fun hs => hns2 (List.mem_reverse.mp (hs ▸ hx)))
        rw [hstep]
        refine ⟨rfl, ?_, ?_⟩
        · simp [List.all_append, List.all_cons, hDall, hOall, hslv, hall2]
        · have hrev :
              (defaultDomain ++ '/' :: officialRepo ++ '/' :: p.2).reverse
              = p.2.reverse
                ++ '/' :: (officialRepo.reverse
                  ++ '/' :: defaultDomain.reverse) := by
            simp [List.reverse_append, List.cons_append, List.append_assoc]
          rw [hrev]
          exact revFindTag_none_slash p.2.reverse _ []
            (fun x hx => ⟨fun hc => hnc2 (hc ▸ hx),
              fun hs => hns2 (List.mem_reverse.mp (hs ▸ hx))⟩)
      · have hstep : normalizeName nm = nm := by
          unfold normalizeName
          simp only [hsp]
          rw [if_pos hdom, if_neg hc2]
        rw [hstep]
        exact ⟨hne, hall, hnt⟩
    · have hstep : normalizeName nm = defaultDomain ++ '/' :: nm := by
        unfold normalizeName
        simp only [hsp]
        rw [if_neg hdom]
      have hsnm : '/' ∈ nm := by
        rw [hl]
        exact List.mem_append.mpr (Or.inr (List.mem_cons_self _ _))
      rw [hstep]
      refine ⟨rfl, ?_, ?_⟩
      · simp [List.all_append, List.all_cons, hDall, hslv, hall]
      · have hrev : (defaultDomain ++ '/' :: nm).reverse
            = nm.reverse ++ ('/' :: defaultDomain.reverse) := by
          simp [List.reverse_append, List.cons_append, List.append_assoc]
        rw [hrev]
        exact revFindTag_none_extend nm.reverse []
          ('/' :: defaultDomain.reverse) hnt (List.mem_reverse.mpr hsnm)

theorem validTag_chars (t : List Char) (h : validTag t = true) :
    ∀ x ∈ t, ¬ x = ':' ∧ ¬ x = '/' ∧ ¬ x = '@' := by
  intro x hx
  have h2 : t.all validTagChar = true := by
    unfold validTag at h
    simp only [Bool.and_eq_true] at h
    exact h.2
  have hv := List.all_eq_true.mp h2 x hx
  refine ⟨?_, ?_, ?_⟩
  · intro he; rw [he] at hv; exact absurd hv (by decide)
  · intro he; rw [he] at hv; exact absurd hv (by decide)
  · intro he; rw [he] at hv; exact absurd hv (by decide)

theorem digest_no_at (dg : List Char) (h : validDigestText dg = true) :
    '@' ∉ dg := by
  unfold validDigestText at h
  cases hsp : splitAtFirst ':' dg with
  | none => rw [hsp] at h; simp at h
  | some p =>
    rw [hsp] at h
    obtain ⟨hd, _⟩ := splitAtFirst_eq_some ':' dg p.1 p.2 hsp
    simp only [Bool.and_eq_true] at h
    intro hmem
    rw [hd] at hmem
    rcases List.mem_append.mp hmem with h1 | h1
    · have hx := List.all_eq_true.mp h.1.1.2 '@' h1
      exact absurd hx (by decide)
    · rcases List.mem_cons.mp h1 with h2 | h2
      · exact absurd h2 (by decide)
      · have hx := List.all_eq_true.mp h.2 '@' h2
        exact absurd hx (by decide)

theorem validRawName_parts (nm : List Char) (h : validRawName nm = true) :
    nm.isEmpty = false ∧ nm.all validNameChar = true
      ∧ revFindTag [] nm.reverse = none := by
  unfold validRawName at h
  simp only [Bool.and_eq_true] at h
  refine ⟨?_, h.1.2, ?_⟩
  · cases hx : nm.isEmpty with
    | false => rfl
    | true =>
      rw [hx] at h
      exact absurd h.1.1 (by decide)
  · exact Option.isNone_iff_eq_none.mp h.2

/-- Rendering a reference assembled from a normalized name, an optional
validated tag and an optional validated digest re-parses to exactly that
reference. -/
theorem parse_render_core (N : List Char) (T dg : Option (List Char))
    (hNv : validRawName N = true)
    (hNidem : normalizeName N = N)
    (hT : ∀ t, T = some t → validTag t = true)
    (hTd : T = none → dg.isSome = true)
    (hdg : checkDigestPart dg = true) :
    Parse (Ref.render ⟨N, T, dg⟩) = some ⟨N, T, dg⟩ := by
  obtain ⟨hNe, hNall, hNnt⟩ := validRawName_parts N hNv
  have hatN : '@' ∉ N :=
    not_mem_of_all_valid _ validNameChar '@' hNall (by decide)
  cases T with
  | some t =>
    have hvt := hT t rfl
    have htch := validTag_chars t hvt
    have hrevlist : (N ++ ':' :: t).reverse = t.reverse ++ ':' :: N.reverse := by
      simp [List.reverse_append, List.reverse_cons, List.append_assoc]
    have hfind : revFindTag [] ((N ++ ':' :: t).reverse) = some (N, t) := by
      rw [hrevlist]
      have hq := revFindTag_append_colon t.reverse N.reverse []
        (fun x hx => ⟨(htch x (List.mem_reverse.mp hx)).1,
          (htch x (List.mem_reverse.mp hx)).2.1⟩)
      simpa using hq
    cases dg with
    | some g =>
      have hgat : '@' ∉ g := digest_no_at g (by simpa [checkDigestPart] using hdg)
      have hsplit : splitAtFirst '@' ((N ++ ':' :: t) ++ '@' :: g)
          = some (N ++ ':' :: t, g) := by
        apply splitAtFirst_append
        intro hm
        rcases List.mem_append.mp hm with h1 | h1
        · exact hatN h1
        · rcases List.mem_cons.mp h1 with h2 | h2
          · exact absurd h2 (by decide)
          · exact (htch '@' h2).2.2 rfl
      have hrender : Ref.render ⟨N, some t, some g⟩
          = (N ++ ':' :: t) ++ '@' :: g := by
        simp [Ref.render, List.append_assoc]
      rw [hrender]
      simp only [Parse, splitDigestPart, hsplit]
      rw [if_pos hdg]
      simp only [hfind]
      rw [if_pos (by rw [hvt, hNv]; rfl :
        (validTag t && validRawName N) = true)]
      simp [mkRef, defaultedTag, hNidem]
    | none =>
      have hsplit : splitAtFirst '@' (N ++ ':' :: t) = none := by
        apply splitAtFirst_none
        intro hm
        rcases List.mem_append.mp hm with h1 | h1
        · exact hatN h1
        · rcases List.mem_cons.mp h1 with h2 | h2
          · exact absurd h2 (by decide)
          · exact (htch '@' h2).2.2 rfl
      have hrender : Ref.render ⟨N, some t, none⟩ = N ++ ':' :: t := by
        simp [Ref.render]
      rw [hrender]
      simp only [Parse, splitDigestPart, hsplit]
      rw [if_pos (by rfl : checkDigestPart none = true)]
      simp only [hfind]
      rw [if_pos (by rw [hvt, hNv]; rfl :
        (validTag t && validRawName N) = true)]
      simp [mkRef, defaultedTag, hNidem]
  | none =>
    have hg : dg.isSome = true := hTd rfl
    cases dg with
    | none => simp at hg
    | some g =>
      have hgat : '@' ∉ g := digest_no_at g (by simpa [checkDigestPart] using hdg)
      have hsplit : splitAtFirst '@' (N ++ '@' :: g) = some (N, g) :=
        splitAtFirst_append '@' N g hatN
      have hrender : Ref.render ⟨N, none, some g⟩ = N ++ '@' :: g := by
        simp [Ref.render]
      rw [hrender]
      simp only [Parse, splitDigestPart, hsplit]
      rw [if_pos hdg]
      simp only [hNnt]
      rw [if_pos hNv]
      simp [mkRef, defaultedTag, hNidem]

/-- C9: parsing the canonical rendering of a parsed reference yields the
same result as parsing the original text — the normalization performed by
`Parse` is idempotent. -/
theorem parse_string_roundtrip (text : List Char) (r : Ref)
    (h : Parse text = some r) : Parse (Ref.render r) = Parse text := by
  rw [h]
  simp only [Parse] at h
  by_cases hcd : checkDigestPart (splitDigestPart text).2 = true
  · rw [if_pos hcd] at h
    cases hrt : revFindTag [] (splitDigestPart text).1.reverse with
    | some p =>
      simp only [hrt] at h
      by_cases hv : (validTag p.2 && validRawName p.1) = true
      · rw [if_pos hv] at h
        injection h with h
        subst h
        have hv' : validTag p.2 = true ∧ validRawName p.1 = true := by
          simpa only [Bool.and_eq_true] using hv
        have hcore := parse_render_core (normalizeName p.1)
          (defaultedTag (some p.2) (splitDigestPart text).2)
          (splitDigestPart text).2
          (by
            have hparts := validRawName_parts p.1 hv'.2
            have hq := validRawName_normalizeName p.1 hparts.1 hparts.2.1
              hparts.2.2
            simp [validRawName, hq.1, hq.2.1, hq.2.2])
          (normalizeName_idem p.1)
          (by
            intro t ht
            simp only [defaultedTag] at ht
            injection ht with ht
            rw [← ht]
            exact hv'.1)
          (by intro ht; simp [defaultedTag] at ht)
          hcd
        exact hcore
      · rw [if_neg hv] at h
        simp at h
    | none =>
      simp only [hrt] at h
      by_cases hv : validRawName (splitDigestPart text).1 = true
      · rw [if_pos hv] at h
        injection h with h
        subst h
        have hparts := validRawName_parts _ hv
        have hq := validRawName_normalizeName _ hparts.1 hparts.2.1 hparts.2.2
        cases hdgc : (splitDigestPart text).2 with
        | some g =>
          have hcore := parse_render_core (normalizeName (splitDigestPart text).1)
            (defaultedTag none (some g)) (some g)
            (by simp [validRawName, hq.1, hq.2.1, hq.2.2])
            (normalizeName_idem _)
            (by intro t ht; simp [defaultedTag] at ht)
            (by intro _; rfl)
            (by rw [← hdgc]; exact hcd)
          simpa [mkRef, hdgc] using hcore
        | none =>
          have hcore := parse_render_core (normalizeName (splitDigestPart text).1)
            (defaultedTag none none) none
            (by simp [validRawName, hq.1, hq.2.1, hq.2.2])
            (normalizeName_idem _)
            (by
              intro t ht
              simp only [defaultedTag] at ht
              injection ht with ht
              rw [← ht]
              decide)
            (by intro ht; simp [defaultedTag] at ht)
            rfl
          simpa [mkRef, hdgc] using hcore
      · rw [if_neg hv] at h
        simp at h
  · rw [if_neg hcd] at h
    simp at h

/-- C9 witness: parsing "busybox", rendering the parse
(`docker.io/library/busybox:latest`) and re-parsing yields the same result
as parsing the original text. -/
theorem parse_string_roundtrip_witness :
    Parse (Ref.render ⟨"docker.io/library/busybox".toList,
        some "latest".toList, none⟩)
      = Parse "busybox".toList :=
  parse_string_roundtrip "busybox".toList
    ⟨"docker.io/library/busybox".toList, some "latest".toList, none⟩
    (by decide)

end Moby
